import Mathlib

/-!
Verification development for the dictionary core described by
`include/cpython/dictobject.h`.  The header only declares the contract
(`PyDictObject`, `_PyDict_GetItem_KnownHash`, `_PyDict_SetItem_KnownHash`,
`_PyDict_DelItem_KnownHash`, `PyDict_SetDefault`, `_PyDict_Pop`,
`_PyDict_MergeEx`, `_PyDict_Next`, `PyDict_GET_SIZE`,
`_PyDictKeys_GetVersionForCurrentState`, `_PyDict_HasSplitTable`); the
algorithm bodies live outside this tree, so the operational behaviour is
modelled from the accompanying specification of the dictionary core
(combined and split tables, tombstones, insertion order, version tags,
cursors, merge policies).  Keys, values and hashes are modelled as naturals.
-/

set_option linter.unusedVariables false

namespace DictSpec

/-- Error taxonomy of the dictionary core, from the specification:
KeyMissing, KeyConflict, OutOfMemory, InvalidatedCursor. -/
inductive DictError where
  | keyMissing
  | keyConflict (k : Nat)
  | outOfMemory
  | invalidatedCursor
deriving DecidableEq, Repr

/-- Merge policies of `_PyDict_MergeEx`: override 0 = first occurrence wins,
override 1 = last occurrence wins, override 2 = raise on conflicting key. -/
inductive MergePolicy where
  | firstWins
  | lastWins
  | raiseOnConflict
deriving DecidableEq, Repr

/-- Hashing collaborator.  Modelled from the spec: an external deterministic
function `hash(key) -> integer`; its concrete values are irrelevant to the
dictionary core, so naturals hash to themselves. -/
def hashFn (k : Nat) : Nat := k

/-- One slot of a KeysTable: a key entry `{key, hash, value?}` (the value is
present only in combined mode) or a tombstone left by a deletion. -/
inductive KSlot where
  | entry (key : Nat) (khash : Nat) (cval : Option Nat)
  | tomb
deriving DecidableEq, Repr

/-- Storage mode of a KeysTable: combined (keys and values in the slots) or
split (keys shared, values in a per-dictionary dense array). -/
inductive TableMode where
  | combined
  | split
deriving DecidableEq, Repr

/-- Modelled from the spec: the KeysTable behind the forward-declared
`PyDictKeysObject` — insertion-ordered slots, an index-table capacity,
a shape version for the version oracle (0 = unknowable) and a structural
generation counter used to invalidate cursors. -/
structure KeysTable where
  slots : List KSlot
  capacity : Nat
  mode : TableMode
  kv_version : Nat
  generation : Nat
deriving DecidableEq, Repr

/-- True on key entries, false on tombstones. -/
def KSlot.isEntry : KSlot → Bool
  | .entry _ _ _ => true
  | .tomb => false

/-- `filled_slots`: slots consuming index space, tombstones included. -/
def KeysTable.filledSlots (t : KeysTable) : Nat := t.slots.length

/-- `used_slots`: slots holding a key entry (tombstones excluded). -/
def KeysTable.usedSlots (t : KeysTable) : Nat :=
  (t.slots.filter KSlot.isEntry).length

/-- Key and hash of a slot, with the value erased. -/
def slotKeyHash : KSlot → Option (Nat × Nat)
  | .entry k h _ => some (k, h)
  | .tomb => none

/-- The key shape of a KeysTable: the slot sequence with values erased.
This is what a nonzero oracle version must uniquely identify. -/
def keyShape (t : KeysTable) : List (Option (Nat × Nat)) :=
  t.slots.map slotKeyHash

/-- The dictionary object of the header: item count `ma_used`, 64-bit
version tag `ma_version_tag`, keys table `ma_keys`, and `ma_values`
(`none` for a combined table, a dense value array for a split table). -/
structure PyDictObject where
  ma_used : Nat
  ma_version_tag : Nat
  ma_keys : KeysTable
  ma_values : Option (List (Option Nat))
deriving DecidableEq, Repr

/-- The header macro `_PyDict_HasSplitTable`: the values pointer is non-null. -/
def hasSplitTable (d : PyDictObject) : Bool := d.ma_values.isSome

/-- A dictionary together with the global oracles.  Modelled from the spec:
`verOracle` is the version oracle issuing globally monotonic version tags,
`keysOracle` is the next keys-shape version of the 32-bit pool behind
`_PyDictKeys_GetVersionForCurrentState`. -/
structure DState where
  d : PyDictObject
  verOracle : Nat
  keysOracle : Nat
deriving DecidableEq, Repr

/-- Smallest power of two that is at least `n`, computed by fuel-bounded
doubling (the spec only asks for a power-of-two index-table size). -/
def pow2GeAux : Nat → Nat → Nat → Nat
  | 0, _, acc => acc
  | fuel + 1, n, acc => if n ≤ acc then acc else pow2GeAux fuel n (2 * acc)

/-- Power-of-two capacity for a table expected to hold `n` filled slots. -/
def pow2Ge (n : Nat) : Nat := pow2GeAux n n 1

/-- Load-factor trigger, modelled from the spec: grow when the filled ratio
after one more insertion would exceed about two thirds. -/
def needsGrow (t : KeysTable) : Bool :=
  decide (2 * t.capacity < 3 * (t.filledSlots + 1))

/-- Combined-mode probe, modelled from the spec lookup contract: walk the
slots in probe order, compare hash first and then the key, skip tombstones;
`some cv` means the key has an entry holding `cv`. -/
def findC (k h : Nat) : List KSlot → Option (Option Nat)
  | [] => none
  | .entry k' h' cv :: rest =>
      if h' = h ∧ k' = k then some cv else findC k h rest
  | .tomb :: rest => findC k h rest

/-- Split-mode probe: walk the key slots and the dense value array in step;
`some ov` means the key is in the shared layout and its value slot holds
`ov` (`none` is a hole left by a split-mode deletion). -/
def findS (k h : Nat) : List KSlot → List (Option Nat) → Option (Option Nat)
  | .entry k' h' _ :: srest, ov :: vrest =>
      if h' = h ∧ k' = k then some ov else findS k h srest vrest
  | .tomb :: srest, _ :: vrest => findS k h srest vrest
  | _, _ => none

/-- Split-mode value-store update: write `nv` into the value slot of key
`k`; returns the old value slot and the new store, or `none` when the key
is not in the shared layout. -/
def updateS (k h : Nat) (nv : Option Nat) :
    List KSlot → List (Option Nat) → Option (Option Nat × List (Option Nat))
  | .entry k' h' _ :: srest, ov :: vrest =>
      if h' = h ∧ k' = k then some (ov, nv :: vrest)
      else (updateS k h nv srest vrest).map fun p => (p.1, ov :: p.2)
  | .tomb :: srest, ov :: vrest =>
      (updateS k h nv srest vrest).map fun p => (p.1, ov :: p.2)
  | _, _ => none

/-- Combined-mode overwrite: replace the value stored with key `k`; `none`
when the key has no entry. -/
def overwriteC (k h v : Nat) : List KSlot → Option (List KSlot)
  | [] => none
  | .entry k' h' cv :: rest =>
      if h' = h ∧ k' = k then some (.entry k' h' (some v) :: rest)
      else (overwriteC k h v rest).map (.entry k' h' cv :: ·)
  | .tomb :: rest => (overwriteC k h v rest).map (.tomb :: ·)

/-- Combined-mode deletion: tombstone the entry of key `k`, returning the
deleted value; `none` when the key has no live entry. -/
def deleteC (k h : Nat) : List KSlot → Option (Nat × List KSlot)
  | [] => none
  | .entry k' h' cv :: rest =>
      if h' = h ∧ k' = k then cv.map fun v => (v, .tomb :: rest)
      else (deleteC k h rest).map fun p => (p.1, .entry k' h' cv :: p.2)
  | .tomb :: rest => (deleteC k h rest).map fun p => (p.1, .tomb :: p.2)

/-- Per-slot live view of a combined table: `some (key, value, hash)` for a
live pair, `none` for a tombstone. -/
def viewCombined : List KSlot → List (Option (Nat × Nat × Nat))
  | [] => []
  | .entry k h (some v) :: rest => some (k, v, h) :: viewCombined rest
  | _ :: rest => none :: viewCombined rest

/-- Per-slot live view of a split table: the key slots and the dense value
array walked in step; `none` for a value hole. -/
def viewSplit : List KSlot → List (Option Nat) → List (Option (Nat × Nat × Nat))
  | .entry k h _ :: srest, ov :: vrest =>
      (ov.map fun v => (k, v, h)) :: viewSplit srest vrest
  | .tomb :: srest, _ :: vrest => none :: viewSplit srest vrest
  | _, _ => []

/-- Per-slot live view of a dictionary: `some (key, value, hash)` for a live
pair, `none` for a tombstone or a split-mode value hole. -/
def slotsView (d : PyDictObject) : List (Option (Nat × Nat × Nat)) :=
  match d.ma_values with
  | none => viewCombined d.ma_keys.slots
  | some vals => viewSplit d.ma_keys.slots vals

/-- Live `(key, value, hash)` triples in key-insertion order. -/
def liveTriples (d : PyDictObject) : List (Nat × Nat × Nat) :=
  (slotsView d).filterMap id

/-- Live `(key, value)` pairs in key-insertion order. -/
def liveEntries (d : PyDictObject) : List (Nat × Nat) :=
  (liveTriples d).map fun t => (t.1, t.2.1)

/-- The number of live key-value pairs of a dictionary. -/
def liveCount (d : PyDictObject) : Nat := (liveTriples d).length

/-- `_PyDict_GetItem_KnownHash`, modelled from the spec: never mutates and
never fails on a missing key, returning the absent sentinel (`none`). -/
def PyDictObject.getKH (d : PyDictObject) (k h : Nat) : Option Nat :=
  match d.ma_values with
  | none => (findC k h d.ma_keys.slots).join
  | some vals => (findS k h d.ma_keys.slots vals).join

/-- `get`: lookup that hashes the key itself. -/
def PyDictObject.get (d : PyDictObject) (k : Nat) : Option Nat :=
  d.getKH k (hashFn k)

/-- `_PyDict_Contains_KnownHash`. -/
def PyDictObject.containsKH (d : PyDictObject) (k h : Nat) : Bool :=
  (d.getKH k h).isSome

/-- `contains`: membership test that hashes the key itself. -/
def PyDictObject.containsK (d : PyDictObject) (k : Nat) : Bool :=
  (d.get k).isSome

/-- Issue a fresh version tag to the dictionary: the mutated dictionary
gets the next tag of the globally monotonic version oracle. -/
def freshTag (s : DState) (d : PyDictObject) : DState :=
  { s with d := { d with ma_version_tag := s.verOracle },
           verOracle := s.verOracle + 1 }

/-- Resize, modelled from the spec: walk the slots in current order,
compact tombstones away, move to a fresh power-of-two capacity; the key
shape changes, so the shape version resets and the generation bumps. -/
def growTable (t : KeysTable) : KeysTable :=
  { slots := t.slots.filter KSlot.isEntry,
    capacity := pow2Ge (3 * (t.usedSlots + 1)),
    mode := t.mode,
    kv_version := 0,
    generation := t.generation + 1 }

/-- Keys of the combined table obtained by privatizing a split table:
live pairs keep their order and values, holes and tombstones are dropped. -/
def privSlots : List KSlot → List (Option Nat) → List KSlot
  | .entry k h _ :: srest, some v :: vrest =>
      .entry k h (some v) :: privSlots srest vrest
  | .entry _ _ _ :: srest, none :: vrest => privSlots srest vrest
  | .tomb :: srest, _ :: vrest => privSlots srest vrest
  | _, _ => []

/-- `privatize`, modelled from the spec: deep-copy a shared split layout
into a fresh exclusively-owned combined table (split to combined is the
only mode transition). -/
def privatizeD (d : PyDictObject) : PyDictObject :=
  match d.ma_values with
  | none => d
  | some vals =>
      let slots' := privSlots d.ma_keys.slots vals
      { d with
        ma_keys :=
          { slots := slots',
            capacity := pow2Ge (3 * (slots'.length + 1)),
            mode := .combined,
            kv_version := 0,
            generation := d.ma_keys.generation + 1 },
        ma_values := none }

/-- Append a brand-new key to a combined table, growing first when the load
threshold demands it; growth needs the allocator, and a failed allocation
surfaces as OutOfMemory with the state untouched. -/
def insertNewCombined (allocOk : Bool) (s : DState) (k h v : Nat) :
    Except DictError Unit × DState :=
  let d := s.d
  let t := d.ma_keys
  if needsGrow t then
    if allocOk then
      let tg := growTable t
      (Except.ok (),
       freshTag s
         { d with
           ma_keys := { tg with slots := tg.slots ++ [.entry k h (some v)] },
           ma_used := d.ma_used + 1 })
    else (Except.error .outOfMemory, s)
  else
    (Except.ok (),
     freshTag s
       { d with
         ma_keys :=
           { t with
             slots := t.slots ++ [.entry k h (some v)],
             kv_version := 0,
             generation := t.generation + 1 },
         ma_used := d.ma_used + 1 })

/-- Insert a key that is absent from the shared split layout: privatize the
table (allocator required) and append to the resulting combined table. -/
def insertPrivatized (allocOk : Bool) (s : DState) (k h v : Nat) :
    Except DictError Unit × DState :=
  if allocOk then
    let dp := privatizeD s.d
    let tp := dp.ma_keys
    (Except.ok (),
     freshTag s
       { dp with
         ma_keys := { tp with slots := tp.slots ++ [.entry k h (some v)] },
         ma_used := dp.ma_used + 1 })
  else (Except.error .outOfMemory, s)

/-- `_PyDict_SetItem_KnownHash`, modelled from the spec: insert or
overwrite; overwriting keeps key insertion order and the key shape; every
successful call gets a fresh version tag. -/
def dSetKH (allocOk : Bool) (s : DState) (k v h : Nat) :
    Except DictError Unit × DState :=
  let d := s.d
  let t := d.ma_keys
  match d.ma_values with
  | none =>
      match overwriteC k h v t.slots with
      | some slots' =>
          (Except.ok (), freshTag s { d with ma_keys := { t with slots := slots' } })
      | none => insertNewCombined allocOk s k h v
  | some vals =>
      match updateS k h (some v) t.slots vals with
      | some (old, vals') =>
          if old.isSome then
            (Except.ok (), freshTag s { d with ma_values := some vals' })
          else
            (Except.ok (),
             freshTag s
               { d with
                 ma_values := some vals',
                 ma_keys := { t with generation := t.generation + 1 },
                 ma_used := d.ma_used + 1 })
      | none => insertPrivatized allocOk s k h v

/-- `set`: insert or overwrite, hashing the key itself. -/
def dSet (allocOk : Bool) (s : DState) (k v : Nat) :
    Except DictError Unit × DState :=
  dSetKH allocOk s k v (hashFn k)

/-- `_PyDict_DelItem_KnownHash`, modelled from the spec: combined mode
tombstones the slot, split mode only clears the value slot so sibling
dictionaries keep their slot indices; fails with KeyMissing when absent. -/
def dDeleteKH (s : DState) (k h : Nat) : Except DictError Unit × DState :=
  let d := s.d
  let t := d.ma_keys
  match d.ma_values with
  | none =>
      match deleteC k h t.slots with
      | some (_, slots') =>
          (Except.ok (),
           freshTag s
             { d with
               ma_keys :=
                 { t with slots := slots', kv_version := 0,
                          generation := t.generation + 1 },
               ma_used := d.ma_used - 1 })
      | none => (Except.error .keyMissing, s)
  | some vals =>
      match updateS k h none t.slots vals with
      | some (some _, vals') =>
          (Except.ok (),
           freshTag s
             { d with
               ma_values := some vals',
               ma_keys := { t with generation := t.generation + 1 },
               ma_used := d.ma_used - 1 })
      | _ => (Except.error .keyMissing, s)

/-- `delete`: deletion that hashes the key itself. -/
def dDelete (s : DState) (k : Nat) : Except DictError Unit × DState :=
  dDeleteKH s k (hashFn k)

/-- `_PyDict_Pop_KnownHash`, modelled from the spec: return and remove the
value when present; otherwise return the default when supplied, else fail
with KeyMissing; the miss paths do not mutate. -/
def dPopKH (s : DState) (k h : Nat) (dflt : Option Nat) :
    Except DictError Nat × DState :=
  let d := s.d
  let t := d.ma_keys
  match d.ma_values with
  | none =>
      match deleteC k h t.slots with
      | some (v, slots') =>
          (Except.ok v,
           freshTag s
             { d with
               ma_keys :=
                 { t with slots := slots', kv_version := 0,
                          generation := t.generation + 1 },
               ma_used := d.ma_used - 1 })
      | none =>
          match dflt with
          | some d0 => (Except.ok d0, s)
          | none => (Except.error .keyMissing, s)
  | some vals =>
      match updateS k h none t.slots vals with
      | some (some v, vals') =>
          (Except.ok v,
           freshTag s
             { d with
               ma_values := some vals',
               ma_keys := { t with generation := t.generation + 1 },
               ma_used := d.ma_used - 1 })
      | _ =>
          match dflt with
          | some d0 => (Except.ok d0, s)
          | none => (Except.error .keyMissing, s)

/-- `_PyDict_Pop`: pop that hashes the key itself. -/
def dPop (s : DState) (k : Nat) (dflt : Option Nat) :
    Except DictError Nat × DState :=
  dPopKH s k (hashFn k) dflt

/-- Collaborator-call counters: how often the operation invoked the hashing
collaborator and how many probe passes over the table it made. -/
structure Counters where
  hashCalls : Nat
  lookupPasses : Nat
deriving DecidableEq, Repr

/-- Call the hashing collaborator once, ticking the counter. -/
def tickHash (c : Counters) (k : Nat) : Nat × Counters :=
  (hashFn k, { c with hashCalls := c.hashCalls + 1 })

/-- One combined-mode probe pass, ticking the counter. -/
def tickFindC (c : Counters) (k h : Nat) (slots : List KSlot) :
    Option (Option Nat) × Counters :=
  (findC k h slots, { c with lookupPasses := c.lookupPasses + 1 })

/-- One split-mode probe-and-update pass, ticking the counter. -/
def tickUpdateS (c : Counters) (k h : Nat) (nv : Option Nat)
    (slots : List KSlot) (vals : List (Option Nat)) :
    Option (Option Nat × List (Option Nat)) × Counters :=
  (updateS k h nv slots vals, { c with lookupPasses := c.lookupPasses + 1 })

/-- `PyDict_SetDefault` with instrumented collaborator calls, modelled from
the spec: return the existing value when present, else insert the default
and return it — a single hash computation and a single probe pass. -/
def dSetDefaultCounted (allocOk : Bool) (s : DState) (k dflt : Nat)
    (c : Counters) : (Except DictError Nat × DState) × Counters :=
  let (h, c) := tickHash c k
  let d := s.d
  let t := d.ma_keys
  match d.ma_values with
  | none =>
      let (r, c) := tickFindC c k h t.slots
      match r with
      | some (some v) => ((Except.ok v, s), c)
      | _ =>
          let (u, s') := insertNewCombined allocOk s k h dflt
          ((u.map fun _ => dflt, s'), c)
  | some vals =>
      let (r, c) := tickUpdateS c k h (some dflt) t.slots vals
      match r with
      | some (some v, _) => ((Except.ok v, s), c)
      | some (none, vals') =>
          ((Except.ok dflt,
            freshTag s
              { d with
                ma_values := some vals',
                ma_keys := { t with generation := t.generation + 1 },
                ma_used := d.ma_used + 1 }), c)
      | none =>
          let (u, s') := insertPrivatized allocOk s k h dflt
          ((u.map fun _ => dflt, s'), c)

/-- `PyDict_SetDefault`: the instrumented operation with counters dropped. -/
def dSetDefault (allocOk : Bool) (s : DState) (k dflt : Nat) :
    Except DictError Nat × DState :=
  (dSetDefaultCounted allocOk s k dflt ⟨0, 0⟩).1

/-- One step of `_PyDict_MergeEx`, modelled from the spec: walk the live
entries of the other dictionary in its insertion order, apply the policy
per key, count the applied keys; RaiseOnConflict fails fast on the first
colliding key with prior merged keys left applied (no rollback). -/
def mergeLoop (allocOk : Bool) (pol : MergePolicy) :
    List (Nat × Nat) → DState → Nat → Except DictError Unit × DState × Nat
  | [], s, n => (Except.ok (), s, n)
  | (k, v) :: rest, s, n =>
      if s.d.containsK k then
        match pol with
        | .firstWins => mergeLoop allocOk pol rest s n
        | .lastWins =>
            match dSet allocOk s k v with
            | (Except.ok _, s') => mergeLoop allocOk pol rest s' (n + 1)
            | (Except.error e, s') => (Except.error e, s', n)
        | .raiseOnConflict => (Except.error (.keyConflict k), s, n)
      else
        match dSet allocOk s k v with
        | (Except.ok _, s') => mergeLoop allocOk pol rest s' (n + 1)
        | (Except.error e, s') => (Except.error e, s', n)

/-- `_PyDict_MergeEx`: merge the other dictionary into this one under the
given policy; also reports how many keys were applied. -/
def dMerge (allocOk : Bool) (s : DState) (other : PyDictObject)
    (pol : MergePolicy) : Except DictError Unit × DState × Nat :=
  mergeLoop allocOk pol (liveEntries other) s 0

/-- Iteration cursor of `_PyDict_Next`: a stateless slot position plus the
structural generation of the table observed when the cursor was issued. -/
structure Cursor where
  pos : Nat
  gen : Nat
deriving DecidableEq, Repr

/-- A fresh cursor at position 0 for the current table. -/
def freshCursor (d : PyDictObject) : Cursor :=
  ⟨0, d.ma_keys.generation⟩

/-- First live slot of a per-slot view: the triple and its offset. -/
def firstLive : List (Option (Nat × Nat × Nat)) → Option ((Nat × Nat × Nat) × Nat)
  | [] => none
  | some t :: _ => some (t, 0)
  | none :: rest => (firstLive rest).map fun p => (p.1, p.2 + 1)

/-- `_PyDict_Next`, modelled from the spec: fail deterministically with
InvalidatedCursor when the table was structurally mutated since the cursor
was issued; otherwise yield the next live `(key, value, hash)` triple in
key-insertion order, skipping dead slots, or `none` at the end. -/
def dNext (d : PyDictObject) (c : Cursor) :
    Except DictError (Option ((Nat × Nat × Nat) × Cursor)) :=
  if c.gen ≠ d.ma_keys.generation then Except.error .invalidatedCursor
  else
    match firstLive ((slotsView d).drop c.pos) with
    | none => Except.ok none
    | some (t, j) => Except.ok (some (t, ⟨c.pos + j + 1, c.gen⟩))

/-- Drain a cursor through `dNext`, fuel-bounded by the table size. -/
def cursorListAux (d : PyDictObject) : Nat → Cursor → List (Nat × Nat × Nat)
  | 0, _ => []
  | fuel + 1, c =>
      match dNext d c with
      | Except.ok (some (t, c')) => t :: cursorListAux d fuel c'
      | _ => []

/-- All triples yielded by iterating a fresh cursor to the end. -/
def cursorList (d : PyDictObject) : List (Nat × Nat × Nat) :=
  cursorListAux d (slotsView d).length (freshCursor d)

/-- `_PyDictKeys_GetVersionForCurrentState`, modelled from the spec: return
the version number of the present key shape when uniqueness can be
guaranteed, assigning a fresh one from the 32-bit pool when the table has
none yet; return zero ("unknowable, do not cache") when the pool is
exhausted. -/
def getVersionForCurrentState (s : DState) : Nat × DState :=
  let t := s.d.ma_keys
  if t.kv_version ≠ 0 then (t.kv_version, s)
  else if s.keysOracle < 2 ^ 32 then
    (s.keysOracle,
     { s with
       d := { s.d with ma_keys := { t with kv_version := s.keysOracle } },
       keysOracle := s.keysOracle + 1 })
  else (0, s)

/-- An empty combined KeysTable at the minimum capacity. -/
def emptyKeys : KeysTable :=
  { slots := [], capacity := 8, mode := .combined, kv_version := 0,
    generation := 0 }

/-- A fresh empty dictionary: private combined KeysTable, no values array. -/
def emptyDict : PyDictObject :=
  { ma_used := 0, ma_version_tag := 1, ma_keys := emptyKeys, ma_values := none }

/-- Initial state: a fresh empty dictionary with pristine oracles. -/
def initState : DState :=
  { d := emptyDict, verOracle := 2, keysOracle := 1 }

/-- `_PyDict_NewPresized`: an empty dictionary whose table is pre-sized for
the expected item count. -/
def newPresized (n : Nat) : DState :=
  { d := { emptyDict with
           ma_keys := { emptyKeys with capacity := pow2Ge (3 * (n + 1)) } },
    verOracle := 2, keysOracle := 1 }

/-- Turn a slot into its shared split-layout form: keys survive with their
hashes, embedded values and tombstones do not. -/
def shareSlot : KSlot → Option KSlot
  | .entry k h _ => some (.entry k h none)
  | .tomb => none

/-- Attribute-storage creation, modelled from the spec: a new dictionary in
split mode sharing the key layout of an existing dictionary, with a private
all-hole value store. -/
def mkSplitShared (s : DState) : DState :=
  let shared : List KSlot := s.d.ma_keys.slots.filterMap shareSlot
  freshTag s
    { ma_used := 0,
      ma_version_tag := 0,
      ma_keys :=
        { slots := shared,
          capacity := pow2Ge (3 * (shared.length + 1)),
          mode := .split,
          kv_version := 0,
          generation := 0 },
      ma_values := some (List.replicate shared.length none) }

/-- The operations of the public container, as trace steps.  The Boolean is
the allocator collaborator outcome for operations that may allocate. -/
inductive Op where
  | set (allocOk : Bool) (k v : Nat)
  | setKH (allocOk : Bool) (k v h : Nat)
  | setDef (allocOk : Bool) (k dflt : Nat)
  | del (k : Nat)
  | delKH (k h : Nat)
  | popO (k : Nat) (dflt : Option Nat)
  | getO (k : Nat)
  | containsO (k : Nat)
  | mergeO (allocOk : Bool) (other : PyDictObject) (pol : MergePolicy)
  | versionO
deriving Repr

/-- State transition of one operation.  `get` and `contains` are pure reads
and leave the state untouched. -/
def applyOp (s : DState) : Op → DState
  | .set a k v => (dSet a s k v).2
  | .setKH a k v h => (dSetKH a s k v h).2
  | .setDef a k dflt => (dSetDefault a s k dflt).2
  | .del k => (dDelete s k).2
  | .delKH k h => (dDeleteKH s k h).2
  | .popO k dflt => (dPop s k dflt).2
  | .getO _ => s
  | .containsO _ => s
  | .mergeO a other pol => (dMerge a s other pol).2.1
  | .versionO => (getVersionForCurrentState s).2

/-- Run a trace of operations from a state. -/
def runOps (ops : List Op) (s : DState) : DState :=
  ops.foldl applyOp s

/-- The state after the first `i` operations of a trace. -/
def stateAt (ops : List Op) (s0 : DState) (i : Nat) : DState :=
  runOps (ops.take i) s0

/-- The version tag after the first `i` operations of a trace. -/
def tagAt (ops : List Op) (s0 : DState) (i : Nat) : Nat :=
  (stateAt ops s0 i).d.ma_version_tag

/-- A generic object: a dictionary or something else.  Models the
`PyObject` argument of the header macros. -/
inductive PyObj where
  | dictObj (d : PyDictObject)
  | nonDict (tag : Nat)
deriving DecidableEq, Repr

/-- `PyDict_Check`: type test used by the assertion in `PyDict_GET_SIZE`. -/
def PyDict_Check : PyObj → Bool
  | .dictObj _ => true
  | .nonDict _ => false

/-- The dictionary behind an object (the C cast in the macro). -/
def asDict : PyObj → PyDictObject
  | .dictObj d => d
  | .nonDict _ => emptyDict

/-- `PyDict_GET_SIZE` from the header:
`(assert(PyDict_Check(mp)), ((PyDictObject *)mp)->ma_used)`.
`none` models a failing assertion. -/
def PyDict_GET_SIZE (mp : PyObj) : Option Nat :=
  if PyDict_Check mp then some (asDict mp).ma_used else none

/-- A slot as a combined table stores it: every key entry holds a value. -/
def slotComb : KSlot → Bool
  | .entry _ _ cv => cv.isSome
  | .tomb => true

/-- A slot as a split table stores it: key entries only, no embedded value
and no tombstone. -/
def slotSplit : KSlot → Bool
  | .entry _ _ cv => cv.isNone
  | .tomb => false

/-- The stored hash of an entry agrees with the hashing collaborator. -/
def hashOKslot : KSlot → Bool
  | .entry k h _ => h == hashFn k
  | .tomb => true

/-- The keys of the entry slots, in order. -/
def entryKeys (slots : List KSlot) : List Nat :=
  slots.filterMap fun s =>
    match s with
    | .entry k _ _ => some k
    | .tomb => none

/-- No duplicates, as a Boolean check. -/
def nodupB : List Nat → Bool
  | [] => true
  | x :: xs => (!xs.contains x) && nodupB xs

/-- Structural well-formedness of a dictionary: the mode of the keys table
matches the presence of the values array, the stored slots fit the mode,
a split value store is as long as the slot list, and `ma_used` counts the
live pairs. -/
def WFdict (d : PyDictObject) : Bool :=
  (match d.ma_values with
   | none => d.ma_keys.mode == .combined && d.ma_keys.slots.all slotComb
   | some vals =>
       d.ma_keys.mode == .split && (vals.length == d.ma_keys.slots.length)
         && d.ma_keys.slots.all slotSplit)
  && (d.ma_used == liveCount d)

/-- Well-formedness of a state: the dictionary is well-formed and the
oracles dominate the issued tag and shape version. -/
def WFstate (s : DState) : Bool :=
  WFdict s.d && decide (s.d.ma_version_tag < s.verOracle)
    && decide (1 ≤ s.keysOracle)
    && decide (s.d.ma_keys.kv_version < s.keysOracle)

/-- Hash consistency: stored hashes agree with the collaborator and the
entry keys are pairwise distinct. -/
def hashOK (d : PyDictObject) : Bool :=
  d.ma_keys.slots.all hashOKslot && nodupB (entryKeys d.ma_keys.slots)

/-- A good state: well-formed and hash-consistent. -/
def Good (s : DState) : Bool :=
  WFstate s && hashOK s.d

/-- Live-pair count of a combined slot list. -/
def liveLen (slots : List KSlot) : Nat :=
  ((viewCombined slots).filterMap id).length

/-- Live-pair count of a split slot list with its value store. -/
def liveLenS (slots : List KSlot) (vals : List (Option Nat)) : Nat :=
  ((viewSplit slots vals).filterMap id).length

theorem entryKeys_nil : entryKeys [] = [] := rfl

theorem entryKeys_cons_entry (k h : Nat) (cv : Option Nat) (rest : List KSlot) :
    entryKeys (.entry k h cv :: rest) = k :: entryKeys rest := by
  simp [entryKeys, List.filterMap_cons]

theorem entryKeys_cons_tomb (rest : List KSlot) :
    entryKeys (.tomb :: rest) = entryKeys rest := by
  simp [entryKeys, List.filterMap_cons]

theorem findC_append_some {k h : Nat} {a : List KSlot} {cv : Option Nat}
    (b : List KSlot) (hfind : findC k h a = some cv) :
    findC k h (a ++ b) = some cv := by
  induction a with
  | nil => simp [findC] at hfind
  | cons s rest ih =>
      cases s with
      | entry k' h' cv' =>
          simp only [findC, List.cons_append] at hfind ⊢
          split at hfind
          · simp [*]
          · simp only [*, if_neg]
            exact ih hfind
      | tomb =>
          simp only [findC, List.cons_append] at hfind ⊢
          exact ih hfind

theorem findC_append_none {k h : Nat} {a : List KSlot}
    (b : List KSlot) (hfind : findC k h a = none) :
    findC k h (a ++ b) = findC k h b := by
  induction a with
  | nil => simp
  | cons s rest ih =>
      cases s with
      | entry k' h' cv' =>
          simp only [findC, List.cons_append] at hfind ⊢
          split at hfind
          · exact absurd hfind (by simp)
          · simp only [*, if_neg]
            exact ih hfind
      | tomb =>
          simp only [findC, List.cons_append] at hfind ⊢
          exact ih hfind

theorem findC_singleton_match (k h cv) :
    findC k h [KSlot.entry k h cv] = some cv := by
  simp [findC]

theorem findC_singleton_nomatch {k h k' h' : Nat} (cv : Option Nat)
    (hne : ¬(h' = h ∧ k' = k)) :
    findC k h [KSlot.entry k' h' cv] = none := by
  simp only [findC, if_neg hne]

theorem overwriteC_isSome (k h v : Nat) (slots : List KSlot) :
    (overwriteC k h v slots).isSome = (findC k h slots).isSome := by
  induction slots with
  | nil => simp [overwriteC, findC]
  | cons s rest ih =>
      cases s with
      | entry k' h' cv =>
          simp only [overwriteC, findC]
          split
          · simp
          · simpa using ih
      | tomb =>
          simp only [overwriteC, findC]
          simpa using ih

theorem overwriteC_findC_self {k h v : Nat} {slots slots' : List KSlot}
    (hov : overwriteC k h v slots = some slots') :
    findC k h slots' = some (some v) := by
  induction slots generalizing slots' with
  | nil => simp [overwriteC] at hov
  | cons s rest ih =>
      cases s with
      | entry k' h' cv =>
          simp only [overwriteC] at hov
          split at hov
          · cases hov
            simp only [findC]
            rename_i hm
            rw [if_pos hm]
          · rcases Option.map_eq_some'.mp hov with ⟨r, hr, rfl⟩
            simp only [findC]
            rename_i hm
            rw [if_neg hm]
            exact ih hr
      | tomb =>
          simp only [overwriteC] at hov
          rcases Option.map_eq_some'.mp hov with ⟨r, hr, rfl⟩
          simp only [findC]
          exact ih hr

theorem overwriteC_findC_other {k h v k2 h2 : Nat} {slots slots' : List KSlot}
    (hov : overwriteC k h v slots = some slots')
    (hne : ¬(h = h2 ∧ k = k2)) :
    findC k2 h2 slots' = findC k2 h2 slots := by
  induction slots generalizing slots' with
  | nil => simp [overwriteC] at hov
  | cons s rest ih =>
      cases s with
      | entry k' h' cv =>
          simp only [overwriteC] at hov
          split at hov
          · cases hov
            rename_i hm
            obtain ⟨rfl, rfl⟩ := hm
            simp only [findC]
            split
            · rename_i hm2
              exact absurd ⟨hm2.1, hm2.2⟩ hne
            · rfl
          · rcases Option.map_eq_some'.mp hov with ⟨r, hr, rfl⟩
            simp only [findC]
            split
            · rfl
            · exact ih hr
      | tomb =>
          simp only [overwriteC] at hov
          rcases Option.map_eq_some'.mp hov with ⟨r, hr, rfl⟩
          simp only [findC]
          exact ih hr

theorem overwriteC_entryKeys {k h v : Nat} {slots slots' : List KSlot}
    (hov : overwriteC k h v slots = some slots') :
    entryKeys slots' = entryKeys slots := by
  induction slots generalizing slots' with
  | nil => simp [overwriteC] at hov
  | cons s rest ih =>
      cases s with
      | entry k' h' cv =>
          simp only [overwriteC] at hov
          split at hov
          · cases hov
            simp [entryKeys_cons_entry]
          · rcases Option.map_eq_some'.mp hov with ⟨r, hr, rfl⟩
            simp [entryKeys_cons_entry, ih hr]
      | tomb =>
          simp only [overwriteC] at hov
          rcases Option.map_eq_some'.mp hov with ⟨r, hr, rfl⟩
          simp [entryKeys_cons_tomb, ih hr]

theorem overwriteC_hashOK {k h v : Nat} {slots slots' : List KSlot}
    (hov : overwriteC k h v slots = some slots')
    (hok : slots.all hashOKslot = true) :
    slots'.all hashOKslot = true := by
  induction slots generalizing slots' with
  | nil => simp [overwriteC] at hov
  | cons s rest ih =>
      cases s with
      | entry k' h' cv =>
          simp only [List.all_cons, Bool.and_eq_true] at hok
          simp only [overwriteC] at hov
          split at hov
          · cases hov
            simp only [List.all_cons, Bool.and_eq_true]
            exact ⟨hok.1, hok.2⟩
          · rcases Option.map_eq_some'.mp hov with ⟨r, hr, rfl⟩
            simp only [List.all_cons, Bool.and_eq_true]
            exact ⟨hok.1, ih hr hok.2⟩
      | tomb =>
          simp only [List.all_cons, Bool.and_eq_true] at hok
          simp only [overwriteC] at hov
          rcases Option.map_eq_some'.mp hov with ⟨r, hr, rfl⟩
          simp only [List.all_cons, Bool.and_eq_true]
          exact ⟨rfl, ih hr hok.2⟩

theorem overwriteC_slotComb {k h v : Nat} {slots slots' : List KSlot}
    (hov : overwriteC k h v slots = some slots')
    (hok : slots.all slotComb = true) :
    slots'.all slotComb = true := by
  induction slots generalizing slots' with
  | nil => simp [overwriteC] at hov
  | cons s rest ih =>
      cases s with
      | entry k' h' cv =>
          simp only [List.all_cons, Bool.and_eq_true] at hok
          simp only [overwriteC] at hov
          split at hov
          · cases hov
            simp only [List.all_cons, Bool.and_eq_true]
            exact ⟨by simp [slotComb], hok.2⟩
          · rcases Option.map_eq_some'.mp hov with ⟨r, hr, rfl⟩
            simp only [List.all_cons, Bool.and_eq_true]
            exact ⟨hok.1, ih hr hok.2⟩
      | tomb =>
          simp only [List.all_cons, Bool.and_eq_true] at hok
          simp only [overwriteC] at hov
          rcases Option.map_eq_some'.mp hov with ⟨r, hr, rfl⟩
          simp only [List.all_cons, Bool.and_eq_true]
          exact ⟨rfl, ih hr hok.2⟩

theorem overwriteC_liveLen {k h v : Nat} {slots slots' : List KSlot}
    (hov : overwriteC k h v slots = some slots')
    (hok : slots.all slotComb = true) :
    liveLen slots' = liveLen slots := by
  induction slots generalizing slots' with
  | nil => simp [overwriteC] at hov
  | cons s rest ih =>
      cases s with
      | entry k' h' cv =>
          simp only [List.all_cons, Bool.and_eq_true] at hok
          simp only [overwriteC] at hov
          split at hov
          · cases hov
            have hcv : cv.isSome = true := hok.1
            rcases Option.isSome_iff_exists.mp hcv with ⟨w, rfl⟩
            simp [liveLen, viewCombined]
          · rcases Option.map_eq_some'.mp hov with ⟨r, hr, rfl⟩
            have hcv : cv.isSome = true := hok.1
            rcases Option.isSome_iff_exists.mp hcv with ⟨w, rfl⟩
            simp only [liveLen, viewCombined, List.filterMap_cons]
            simpa [liveLen] using ih hr hok.2
      | tomb =>
          simp only [List.all_cons, Bool.and_eq_true] at hok
          simp only [overwriteC] at hov
          rcases Option.map_eq_some'.mp hov with ⟨r, hr, rfl⟩
          simp only [liveLen, viewCombined, List.filterMap_cons]
          simpa [liveLen] using ih hr hok.2

theorem deleteC_fst (k h : Nat) (slots : List KSlot) :
    (deleteC k h slots).map Prod.fst = (findC k h slots).join := by
  induction slots with
  | nil => simp [deleteC, findC]
  | cons s rest ih =>
      cases s with
      | entry k' h' cv =>
          simp only [deleteC, findC]
          split
          · cases cv <;> simp
          · rw [← ih]
            cases deleteC k h rest <;> simp
      | tomb =>
          simp only [deleteC, findC]
          rw [← ih]
          cases deleteC k h rest <;> simp

theorem findC_none_of_not_mem {k : Nat} (h : Nat) {slots : List KSlot}
    (hnm : k ∉ entryKeys slots) :
    findC k h slots = none := by
  induction slots with
  | nil => simp [findC]
  | cons s rest ih =>
      cases s with
      | entry k' h' cv =>
          rw [entryKeys_cons_entry] at hnm
          simp only [findC]
          split
          · rename_i hm
            obtain ⟨-, rfl⟩ := hm
            exact absurd (List.mem_cons_self _ _) hnm
          · exact ih fun hm => hnm (List.mem_cons_of_mem _ hm)
      | tomb =>
          rw [entryKeys_cons_tomb] at hnm
          simp only [findC]
          exact ih hnm

theorem deleteC_findC_self {k h v : Nat} {slots slots' : List KSlot}
    (hdel : deleteC k h slots = some (v, slots'))
    (hnd : nodupB (entryKeys slots) = true) :
    findC k h slots' = none := by
  induction slots generalizing slots' with
  | nil => simp [deleteC] at hdel
  | cons s rest ih =>
      cases s with
      | entry k' h' cv =>
          rw [entryKeys_cons_entry] at hnd
          simp only [nodupB, Bool.and_eq_true, Bool.not_eq_true'] at hnd
          simp only [deleteC] at hdel
          split at hdel
          · rename_i hm
            cases cv with
            | none => simp at hdel
            | some w =>
                simp only [Option.map_some'] at hdel
                cases hdel
                simp only [findC]
                refine findC_none_of_not_mem h fun hmem => ?_
                rw [hm.2] at hnd
                have := (List.elem_iff).mpr hmem
                rw [List.contains] at hnd
                rw [hnd.1] at this
                exact Bool.false_ne_true this
          · rcases Option.map_eq_some'.mp hdel with ⟨r, hr, heq⟩
            cases heq
            simp only [findC]
            rename_i hm
            rw [if_neg hm]
            exact ih hr hnd.2
      | tomb =>
          rw [entryKeys_cons_tomb] at hnd
          simp only [deleteC] at hdel
          rcases Option.map_eq_some'.mp hdel with ⟨r, hr, heq⟩
          cases heq
          simp only [findC]
          exact ih hr hnd

theorem deleteC_findC_other {k h v k2 h2 : Nat} {slots slots' : List KSlot}
    (hdel : deleteC k h slots = some (v, slots'))
    (hne : ¬(h = h2 ∧ k = k2)) :
    findC k2 h2 slots' = findC k2 h2 slots := by
  induction slots generalizing slots' with
  | nil => simp [deleteC] at hdel
  | cons s rest ih =>
      cases s with
      | entry k' h' cv =>
          simp only [deleteC] at hdel
          split at hdel
          · rename_i hm
            obtain ⟨rfl, rfl⟩ := hm
            cases cv with
            | none => simp at hdel
            | some w =>
                simp only [Option.map_some'] at hdel
                cases hdel
                simp only [findC]
                split
                · rename_i hm2
                  exact absurd ⟨hm2.1, hm2.2⟩ hne
                · rfl
          · rcases Option.map_eq_some'.mp hdel with ⟨r, hr, heq⟩
            cases heq
            simp only [findC]
            split
            · rfl
            · exact ih hr
      | tomb =>
          simp only [deleteC] at hdel
          rcases Option.map_eq_some'.mp hdel with ⟨r, hr, heq⟩
          cases heq
          simp only [findC]
          exact ih hr

theorem deleteC_liveLen {k h v : Nat} {slots slots' : List KSlot}
    (hdel : deleteC k h slots = some (v, slots')) :
    liveLen slots' + 1 = liveLen slots := by
  induction slots generalizing slots' with
  | nil => simp [deleteC] at hdel
  | cons s rest ih =>
      cases s with
      | entry k' h' cv =>
          simp only [deleteC] at hdel
          split at hdel
          · cases cv with
            | none => simp at hdel
            | some w =>
                simp only [Option.map_some'] at hdel
                cases hdel
                simp [liveLen, viewCombined]
          · rcases Option.map_eq_some'.mp hdel with ⟨r, hr, heq⟩
            cases heq
            cases cv with
            | none =>
                simp only [liveLen, viewCombined, List.filterMap_cons, id_eq]
                exact ih hr
            | some w =>
                have := ih hr
                simp only [liveLen, viewCombined, List.filterMap_cons, id_eq] at this ⊢
                simpa using this
      | tomb =>
          simp only [deleteC] at hdel
          rcases Option.map_eq_some'.mp hdel with ⟨r, hr, heq⟩
          cases heq
          simp only [liveLen, viewCombined, List.filterMap_cons, id_eq]
          exact ih hr

theorem deleteC_entryKeys_sublist {k h v : Nat} {slots slots' : List KSlot}
    (hdel : deleteC k h slots = some (v, slots')) :
    List.Sublist (entryKeys slots') (entryKeys slots) := by
  induction slots generalizing slots' with
  | nil => simp [deleteC] at hdel
  | cons s rest ih =>
      cases s with
      | entry k' h' cv =>
          simp only [deleteC] at hdel
          split at hdel
          · cases cv with
            | none => simp at hdel
            | some w =>
                simp only [Option.map_some'] at hdel
                cases hdel
                rw [entryKeys_cons_tomb, entryKeys_cons_entry]
                exact List.sublist_cons_self _ _
          · rcases Option.map_eq_some'.mp hdel with ⟨r, hr, heq⟩
            cases heq
            rw [entryKeys_cons_entry, entryKeys_cons_entry]
            exact List.Sublist.cons₂ _ (ih hr)
      | tomb =>
          simp only [deleteC] at hdel
          rcases Option.map_eq_some'.mp hdel with ⟨r, hr, heq⟩
          cases heq
          rw [entryKeys_cons_tomb, entryKeys_cons_tomb]
          exact ih hr

theorem deleteC_slotComb {k h v : Nat} {slots slots' : List KSlot}
    (hdel : deleteC k h slots = some (v, slots'))
    (hok : slots.all slotComb = true) :
    slots'.all slotComb = true := by
  induction slots generalizing slots' with
  | nil => simp [deleteC] at hdel
  | cons s rest ih =>
      cases s with
      | entry k' h' cv =>
          simp only [List.all_cons, Bool.and_eq_true] at hok
          simp only [deleteC] at hdel
          split at hdel
          · cases cv with
            | none => simp at hdel
            | some w =>
                simp only [Option.map_some'] at hdel
                cases hdel
                simp only [List.all_cons, Bool.and_eq_true]
                exact ⟨rfl, hok.2⟩
          · rcases Option.map_eq_some'.mp hdel with ⟨r, hr, heq⟩
            cases heq
            simp only [List.all_cons, Bool.and_eq_true]
            exact ⟨hok.1, ih hr hok.2⟩
      | tomb =>
          simp only [List.all_cons, Bool.and_eq_true] at hok
          simp only [deleteC] at hdel
          rcases Option.map_eq_some'.mp hdel with ⟨r, hr, heq⟩
          cases heq
          simp only [List.all_cons, Bool.and_eq_true]
          exact ⟨rfl, ih hr hok.2⟩

theorem deleteC_hashOK {k h v : Nat} {slots slots' : List KSlot}
    (hdel : deleteC k h slots = some (v, slots'))
    (hok : slots.all hashOKslot = true) :
    slots'.all hashOKslot = true := by
  induction slots generalizing slots' with
  | nil => simp [deleteC] at hdel
  | cons s rest ih =>
      cases s with
      | entry k' h' cv =>
          simp only [List.all_cons, Bool.and_eq_true] at hok
          simp only [deleteC] at hdel
          split at hdel
          · cases cv with
            | none => simp at hdel
            | some w =>
                simp only [Option.map_some'] at hdel
                cases hdel
                simp only [List.all_cons, Bool.and_eq_true]
                exact ⟨rfl, hok.2⟩
          · rcases Option.map_eq_some'.mp hdel with ⟨r, hr, heq⟩
            cases heq
            simp only [List.all_cons, Bool.and_eq_true]
            exact ⟨hok.1, ih hr hok.2⟩
      | tomb =>
          simp only [List.all_cons, Bool.and_eq_true] at hok
          simp only [deleteC] at hdel
          rcases Option.map_eq_some'.mp hdel with ⟨r, hr, heq⟩
          cases heq
          simp only [List.all_cons, Bool.and_eq_true]
          exact ⟨rfl, ih hr hok.2⟩

theorem findC_filter (k h : Nat) (slots : List KSlot) :
    findC k h (slots.filter KSlot.isEntry) = findC k h slots := by
  induction slots with
  | nil => rfl
  | cons s rest ih =>
      cases s with
      | entry k' h' cv =>
          simp only [List.filter_cons, KSlot.isEntry, if_pos, findC]
          split <;> simp [ih]
      | tomb =>
          simp only [List.filter_cons, KSlot.isEntry, findC]
          simpa using ih

theorem entryKeys_filter (slots : List KSlot) :
    entryKeys (slots.filter KSlot.isEntry) = entryKeys slots := by
  induction slots with
  | nil => rfl
  | cons s rest ih =>
      cases s with
      | entry k' h' cv =>
          simp only [List.filter_cons, KSlot.isEntry, if_pos]
          rw [entryKeys_cons_entry, entryKeys_cons_entry, ih]
      | tomb =>
          simp only [List.filter_cons, KSlot.isEntry]
          rw [entryKeys_cons_tomb]
          simpa using ih

theorem liveLen_filter (slots : List KSlot) :
    liveLen (slots.filter KSlot.isEntry) = liveLen slots := by
  induction slots with
  | nil => rfl
  | cons s rest ih =>
      cases s with
      | entry k' h' cv =>
          cases cv <;>
            simp_all [List.filter_cons, KSlot.isEntry, liveLen, viewCombined]
      | tomb =>
          simp_all [List.filter_cons, KSlot.isEntry, liveLen, viewCombined]

theorem all_filter_of_all {p : KSlot → Bool} {slots : List KSlot}
    (f : KSlot → Bool) (hall : slots.all p = true) :
    (slots.filter f).all p = true := by
  rw [List.all_eq_true] at hall ⊢
  exact fun x hx => hall x (List.mem_of_mem_filter hx)

theorem viewCombined_append (a b : List KSlot) :
    viewCombined (a ++ b) = viewCombined a ++ viewCombined b := by
  induction a with
  | nil => rfl
  | cons s rest ih =>
      cases s with
      | entry k' h' cv => cases cv <;> simp [viewCombined, ih]
      | tomb => simp [viewCombined, ih]

theorem liveLen_append (a b : List KSlot) :
    liveLen (a ++ b) = liveLen a + liveLen b := by
  simp [liveLen, viewCombined_append, List.filterMap_append]

theorem liveLen_singleton_live (k h v : Nat) :
    liveLen [KSlot.entry k h (some v)] = 1 := rfl

theorem entryKeys_append (a b : List KSlot) :
    entryKeys (a ++ b) = entryKeys a ++ entryKeys b := by
  simp [entryKeys, List.filterMap_append]

theorem not_mem_of_findC_none {k : Nat} {slots : List KSlot}
    (hok : slots.all hashOKslot = true)
    (hfind : findC k (hashFn k) slots = none) :
    k ∉ entryKeys slots := by
  induction slots with
  | nil => simp [entryKeys_nil]
  | cons s rest ih =>
      cases s with
      | entry k' h' cv =>
          simp only [List.all_cons, Bool.and_eq_true] at hok
          have hh' : h' = hashFn k' := by
            have := hok.1
            simpa [hashOKslot] using this
          simp only [findC] at hfind
          split at hfind
          · exact absurd hfind (by simp)
          · rename_i hm
            rw [entryKeys_cons_entry]
            intro hmem
            rcases List.mem_cons.mp hmem with heq | hmem2
            · exact hm ⟨by rw [hh', ← heq], heq.symm⟩
            · exact ih hok.2 hfind hmem2
      | tomb =>
          simp only [List.all_cons, Bool.and_eq_true] at hok
          simp only [findC] at hfind
          rw [entryKeys_cons_tomb]
          exact ih hok.2 hfind

theorem nodupB_iff (l : List Nat) : nodupB l = true ↔ l.Nodup := by
  induction l with
  | nil => simp [nodupB]
  | cons x xs ih =>
      simp only [nodupB, Bool.and_eq_true, Bool.not_eq_true', List.nodup_cons, ← ih]
      constructor
      · rintro ⟨h1, h2⟩
        refine ⟨fun hm => ?_, h2⟩
        have := (List.elem_iff).mpr hm
        rw [List.contains] at h1
        rw [h1] at this
        exact Bool.false_ne_true this
      · rintro ⟨h1, h2⟩
        refine ⟨?_, h2⟩
        rw [List.contains]
        by_contra hne
        have : List.elem x xs = true := by
          cases hel : List.elem x xs
          · exact absurd hel hne
          · rfl
        exact h1 ((List.elem_iff).mp this)

theorem nodupB_sublist {l l' : List Nat}
    (hsub : List.Sublist l' l) (hnd : nodupB l = true) :
    nodupB l' = true :=
  (nodupB_iff _).mpr (((nodupB_iff _).mp hnd).sublist hsub)

theorem updateS_fst (k h : Nat) (nv : Option Nat) (slots : List KSlot)
    (vals : List (Option Nat)) :
    (updateS k h nv slots vals).map Prod.fst = findS k h slots vals := by
  induction slots generalizing vals with
  | nil => cases vals <;> simp [updateS, findS]
  | cons s rest ih =>
      cases vals with
      | nil => cases s <;> simp [updateS, findS]
      | cons ov vrest =>
          cases s with
          | entry k' h' cv =>
              simp only [updateS, findS]
              split
              · simp
              · rw [← ih vrest]
                cases updateS k h nv rest vrest <;> simp
          | tomb =>
              simp only [updateS, findS]
              rw [← ih vrest]
              cases updateS k h nv rest vrest <;> simp

theorem updateS_length {k h : Nat} {nv old : Option Nat} {slots : List KSlot}
    {vals vals' : List (Option Nat)}
    (hup : updateS k h nv slots vals = some (old, vals')) :
    vals'.length = vals.length := by
  induction slots generalizing vals vals' with
  | nil => cases vals <;> simp [updateS] at hup
  | cons s rest ih =>
      cases vals with
      | nil => cases s <;> simp [updateS] at hup
      | cons ov vrest =>
          cases s with
          | entry k' h' cv =>
              simp only [updateS] at hup
              split at hup
              · cases hup
                simp
              · rcases Option.map_eq_some'.mp hup with ⟨r, hr, heq⟩
                cases heq
                simpa using ih hr
          | tomb =>
              simp only [updateS] at hup
              rcases Option.map_eq_some'.mp hup with ⟨r, hr, heq⟩
              cases heq
              simpa using ih hr

theorem updateS_findS_self {k h : Nat} {nv old : Option Nat}
    {slots : List KSlot} {vals vals' : List (Option Nat)}
    (hup : updateS k h nv slots vals = some (old, vals')) :
    findS k h slots vals' = some nv := by
  induction slots generalizing vals vals' with
  | nil => cases vals <;> simp [updateS] at hup
  | cons s rest ih =>
      cases vals with
      | nil => cases s <;> simp [updateS] at hup
      | cons ov vrest =>
          cases s with
          | entry k' h' cv =>
              simp only [updateS] at hup
              split at hup
              · cases hup
                rename_i hm
                simp only [findS]
                rw [if_pos hm]
              · rcases Option.map_eq_some'.mp hup with ⟨r, hr, heq⟩
                cases heq
                rename_i hm
                simp only [findS]
                rw [if_neg hm]
                exact ih hr
          | tomb =>
              simp only [updateS] at hup
              rcases Option.map_eq_some'.mp hup with ⟨r, hr, heq⟩
              cases heq
              simp only [findS]
              exact ih hr

theorem updateS_findS_other {k h k2 h2 : Nat} {nv old : Option Nat}
    {slots : List KSlot} {vals vals' : List (Option Nat)}
    (hup : updateS k h nv slots vals = some (old, vals'))
    (hne : ¬(h = h2 ∧ k = k2)) :
    findS k2 h2 slots vals' = findS k2 h2 slots vals := by
  induction slots generalizing vals vals' with
  | nil => cases vals <;> simp [updateS] at hup
  | cons s rest ih =>
      cases vals with
      | nil => cases s <;> simp [updateS] at hup
      | cons ov vrest =>
          cases s with
          | entry k' h' cv =>
              simp only [updateS] at hup
              split at hup
              · cases hup
                rename_i hm
                obtain ⟨rfl, rfl⟩ := hm
                simp only [findS]
                split
                · rename_i hm2
                  exact absurd ⟨hm2.1, hm2.2⟩ hne
                · rfl
              · rcases Option.map_eq_some'.mp hup with ⟨r, hr, heq⟩
                cases heq
                simp only [findS]
                split
                · rfl
                · exact ih hr
          | tomb =>
              simp only [updateS] at hup
              rcases Option.map_eq_some'.mp hup with ⟨r, hr, heq⟩
              cases heq
              simp only [findS]
              exact ih hr

theorem updateS_liveLenS {k h : Nat} {nv old : Option Nat}
    {slots : List KSlot} {vals vals' : List (Option Nat)}
    (hup : updateS k h nv slots vals = some (old, vals')) :
    liveLenS slots vals' + (if old.isSome then 1 else 0)
      = liveLenS slots vals + (if nv.isSome then 1 else 0) := by
  induction slots generalizing vals vals' with
  | nil => cases vals <;> simp [updateS] at hup
  | cons s rest ih =>
      cases vals with
      | nil => cases s <;> simp [updateS] at hup
      | cons ov vrest =>
          cases s with
          | entry k' h' cv =>
              simp only [updateS] at hup
              split at hup
              · cases hup
                cases nv <;> cases old <;>
                  simp [liveLenS, viewSplit, List.filterMap_cons]
              · rcases Option.map_eq_some'.mp hup with ⟨r, hr, heq⟩
                cases heq
                have := ih hr
                cases ov <;>
                  simp only [liveLenS, viewSplit, List.filterMap_cons,
                    Option.map_some', Option.map_none', id_eq,
                    List.length_cons] at this ⊢ <;>
                  omega
          | tomb =>
              simp only [updateS] at hup
              rcases Option.map_eq_some'.mp hup with ⟨r, hr, heq⟩
              cases heq
              have := ih hr
              simp only [liveLenS, viewSplit, List.filterMap_cons, id_eq] at this ⊢
              omega

theorem findS_none_of_not_mem {k : Nat} (h : Nat) {slots : List KSlot}
    (vals : List (Option Nat)) (hnm : k ∉ entryKeys slots) :
    findS k h slots vals = none := by
  induction slots generalizing vals with
  | nil => cases vals <;> simp [findS]
  | cons s rest ih =>
      cases vals with
      | nil => cases s <;> simp [findS]
      | cons ov vrest =>
          cases s with
          | entry k' h' cv =>
              rw [entryKeys_cons_entry] at hnm
              simp only [findS]
              split
              · rename_i hm
                obtain ⟨-, rfl⟩ := hm
                exact absurd (List.mem_cons_self _ _) hnm
              · exact ih vrest fun hm => hnm (List.mem_cons_of_mem _ hm)
          | tomb =>
              rw [entryKeys_cons_tomb] at hnm
              simp only [findS]
              exact ih vrest hnm

theorem not_mem_of_updateS_none {k : Nat} {nv : Option Nat}
    {slots : List KSlot} {vals : List (Option Nat)}
    (hlen : vals.length = slots.length)
    (hok : slots.all hashOKslot = true)
    (hup : updateS k (hashFn k) nv slots vals = none) :
    k ∉ entryKeys slots := by
  induction slots generalizing vals with
  | nil => simp [entryKeys_nil]
  | cons s rest ih =>
      cases vals with
      | nil => simp at hlen
      | cons ov vrest =>
          simp only [List.length_cons, Nat.succ.injEq] at hlen
          simp only [List.all_cons, Bool.and_eq_true] at hok
          cases s with
          | entry k' h' cv =>
              have hh' : h' = hashFn k' := by
                have := hok.1
                simpa [hashOKslot] using this
              simp only [updateS] at hup
              split at hup
              · exact absurd hup (by simp)
              · rename_i hm
                rw [entryKeys_cons_entry]
                intro hmem
                rcases List.mem_cons.mp hmem with heq | hmem2
                · exact hm ⟨by rw [hh', ← heq], heq.symm⟩
                · rcases hu2 : updateS k (hashFn k) nv rest vrest with _ | p
                  · exact ih hlen hok.2 hu2 hmem2
                  · rw [hu2] at hup
                    simp at hup
          | tomb =>
              simp only [updateS] at hup
              rw [entryKeys_cons_tomb]
              rcases hu2 : updateS k (hashFn k) nv rest vrest with _ | p
              · exact ih hlen hok.2 hu2
              · rw [hu2] at hup
                simp at hup

theorem privSlots_slotComb (slots : List KSlot) (vals : List (Option Nat)) :
    (privSlots slots vals).all slotComb = true := by
  induction slots generalizing vals with
  | nil => cases vals <;> simp [privSlots]
  | cons s rest ih =>
      cases vals with
      | nil => cases s <;> simp [privSlots]
      | cons ov vrest =>
          cases s with
          | entry k' h' cv =>
              cases ov <;> simp [privSlots, slotComb, ih vrest]
          | tomb => simpa [privSlots] using ih vrest

theorem privSlots_hashOK {slots : List KSlot} (vals : List (Option Nat))
    (hok : slots.all hashOKslot = true) :
    (privSlots slots vals).all hashOKslot = true := by
  induction slots generalizing vals with
  | nil => cases vals <;> simp [privSlots]
  | cons s rest ih =>
      cases vals with
      | nil => cases s <;> simp [privSlots]
      | cons ov vrest =>
          simp only [List.all_cons, Bool.and_eq_true] at hok
          cases s with
          | entry k' h' cv =>
              cases ov with
              | none => simpa [privSlots] using ih vrest hok.2
              | some v =>
                  simp only [privSlots, List.all_cons, Bool.and_eq_true]
                  exact ⟨by simpa [hashOKslot] using hok.1, ih vrest hok.2⟩
          | tomb => simpa [privSlots] using ih vrest hok.2

theorem privSlots_entryKeys_sublist (slots : List KSlot)
    (vals : List (Option Nat)) :
    List.Sublist (entryKeys (privSlots slots vals)) (entryKeys slots) := by
  induction slots generalizing vals with
  | nil => cases vals <;> simp [privSlots, entryKeys_nil]
  | cons s rest ih =>
      cases vals with
      | nil =>
          cases s with
          | entry k' h' cv =>
              simp only [privSlots, entryKeys_nil, entryKeys_cons_entry]
              exact List.nil_sublist _
          | tomb =>
              simp only [privSlots, entryKeys_nil, entryKeys_cons_tomb]
              exact List.nil_sublist _
      | cons ov vrest =>
          cases s with
          | entry k' h' cv =>
              cases ov with
              | none =>
                  rw [privSlots, entryKeys_cons_entry]
                  exact (ih vrest).cons _
              | some v =>
                  rw [privSlots, entryKeys_cons_entry, entryKeys_cons_entry]
                  exact (ih vrest).cons₂ _
          | tomb =>
              rw [privSlots, entryKeys_cons_tomb]
              exact ih vrest

theorem privSlots_live (slots : List KSlot) (vals : List (Option Nat)) :
    List.filterMap id (viewCombined (privSlots slots vals))
      = List.filterMap id (viewSplit slots vals) := by
  induction slots generalizing vals with
  | nil => cases vals <;> simp [privSlots, viewCombined, viewSplit]
  | cons s rest ih =>
      cases vals with
      | nil => cases s <;> simp [privSlots, viewCombined, viewSplit]
      | cons ov vrest =>
          cases s with
          | entry k' h' cv =>
              cases ov <;>
                simp [privSlots, viewCombined, viewSplit,
                  List.filterMap_cons, ih vrest]
          | tomb =>
              simp [privSlots, viewCombined, viewSplit,
                List.filterMap_cons, ih vrest]

theorem privSlots_liveLen (slots : List KSlot) (vals : List (Option Nat)) :
    liveLen (privSlots slots vals) = liveLenS slots vals := by
  simp [liveLen, liveLenS, privSlots_live]

theorem privSlots_findC_none {k h : Nat} {nv : Option Nat}
    {slots : List KSlot} {vals : List (Option Nat)}
    (hup : updateS k h nv slots vals = none) :
    findC k h (privSlots slots vals) = none := by
  induction slots generalizing vals with
  | nil => cases vals <;> simp [privSlots, findC]
  | cons s rest ih =>
      cases vals with
      | nil => cases s <;> simp [privSlots, findC]
      | cons ov vrest =>
          cases s with
          | entry k' h' cv =>
              simp only [updateS] at hup
              split at hup
              · exact absurd hup (by simp)
              · rename_i hm
                rcases hu2 : updateS k h nv rest vrest with _ | p
                · cases ov with
                  | none => simpa [privSlots] using ih hu2
                  | some v =>
                      simp only [privSlots, findC]
                      rw [if_neg hm]
                      exact ih hu2
                · rw [hu2] at hup
                  simp at hup
          | tomb =>
              simp only [updateS] at hup
              rcases hu2 : updateS k h nv rest vrest with _ | p
              · simpa [privSlots] using ih hu2
              · rw [hu2] at hup
                simp at hup

theorem privSlots_findC_join {k h : Nat} {slots : List KSlot}
    {vals : List (Option Nat)}
    (hnd : nodupB (entryKeys slots) = true) :
    (findC k h (privSlots slots vals)).join = (findS k h slots vals).join := by
  induction slots generalizing vals with
  | nil => cases vals <;> simp [privSlots, findC, findS]
  | cons s rest ih =>
      cases vals with
      | nil => cases s <;> simp [privSlots, findC, findS]
      | cons ov vrest =>
          cases s with
          | entry k' h' cv =>
              rw [entryKeys_cons_entry] at hnd
              simp only [nodupB, Bool.and_eq_true, Bool.not_eq_true'] at hnd
              by_cases hm : h' = h ∧ k' = k
              · obtain ⟨rfl, rfl⟩ := hm
                have hnm : k' ∉ entryKeys rest := by
                  intro hmem
                  have := (List.elem_iff).mpr hmem
                  rw [List.contains] at hnd
                  rw [hnd.1] at this
                  exact Bool.false_ne_true this
                cases ov with
                | none =>
                    rw [privSlots, findC_none_of_not_mem h'
                      (fun hmem =>
                        hnm ((privSlots_entryKeys_sublist rest vrest).mem hmem))]
                    simp [findS]
                | some v =>
                    simp [privSlots, findC, findS]
              · cases ov with
                | none =>
                    simp only [privSlots, findS, if_neg hm]
                    exact ih hnd.2
                | some v =>
                    simp only [privSlots, findC, findS, if_neg hm]
                    exact ih hnd.2
          | tomb =>
              rw [entryKeys_cons_tomb] at hnd
              simp only [privSlots, findS]
              exact ih hnd

theorem freshTag_d (s : DState) (d : PyDictObject) :
    (freshTag s d).d = { d with ma_version_tag := s.verOracle } := rfl

theorem freshTag_verOracle (s : DState) (d : PyDictObject) :
    (freshTag s d).verOracle = s.verOracle + 1 := rfl

theorem freshTag_keysOracle (s : DState) (d : PyDictObject) :
    (freshTag s d).keysOracle = s.keysOracle := rfl

theorem liveCount_combined {d : PyDictObject} (hv : d.ma_values = none) :
    liveCount d = liveLen d.ma_keys.slots := by
  simp [liveCount, liveTriples, slotsView, hv, liveLen]

theorem liveCount_split {d : PyDictObject} {w : List (Option Nat)}
    (hv : d.ma_values = some w) :
    liveCount d = liveLenS d.ma_keys.slots w := by
  simp [liveCount, liveTriples, slotsView, hv, liveLenS]

theorem getKH_combined {d : PyDictObject} (hv : d.ma_values = none)
    (k h : Nat) : d.getKH k h = (findC k h d.ma_keys.slots).join := by
  simp [PyDictObject.getKH, hv]

theorem getKH_split {d : PyDictObject} {w : List (Option Nat)}
    (hv : d.ma_values = some w) (k h : Nat) :
    d.getKH k h = (findS k h d.ma_keys.slots w).join := by
  simp [PyDictObject.getKH, hv]

/-- Base slot list on top of which a combined-mode insertion appends: the
current slots, compacted first when the insertion grows the table. -/
def insBase (t : KeysTable) : List KSlot :=
  if needsGrow t then t.slots.filter KSlot.isEntry else t.slots

theorem insBase_findC (k h : Nat) (t : KeysTable) :
    findC k h (insBase t) = findC k h t.slots := by
  unfold insBase
  split
  · exact findC_filter k h t.slots
  · rfl

theorem insBase_entryKeys (t : KeysTable) :
    entryKeys (insBase t) = entryKeys t.slots := by
  unfold insBase
  split
  · exact entryKeys_filter t.slots
  · rfl

theorem insBase_liveLen (t : KeysTable) :
    liveLen (insBase t) = liveLen t.slots := by
  unfold insBase
  split
  · exact liveLen_filter t.slots
  · rfl

theorem insBase_all {p : KSlot → Bool} {t : KeysTable}
    (hall : t.slots.all p = true) : (insBase t).all p = true := by
  unfold insBase
  split
  · exact all_filter_of_all _ hall
  · exact hall

theorem insertNewCombined_true (s : DState) (k h v : Nat) :
    insertNewCombined true s k h v
      = (Except.ok (),
         freshTag s
           { s.d with
             ma_keys :=
               { slots := insBase s.d.ma_keys ++ [.entry k h (some v)],
                 capacity :=
                   if needsGrow s.d.ma_keys then
                     pow2Ge (3 * (s.d.ma_keys.usedSlots + 1))
                   else s.d.ma_keys.capacity,
                 mode := s.d.ma_keys.mode,
                 kv_version := 0,
                 generation := s.d.ma_keys.generation + 1 },
             ma_used := s.d.ma_used + 1 }) := by
  cases hg : needsGrow s.d.ma_keys with
  | true => simp [insertNewCombined, insBase, growTable, hg]
  | false => simp [insertNewCombined, insBase, growTable, hg]

theorem insertNewCombined_false_grow (s : DState) (k h v : Nat)
    (hg : needsGrow s.d.ma_keys = true) :
    insertNewCombined false s k h v = (Except.error .outOfMemory, s) := by
  simp [insertNewCombined, hg]

theorem insertNewCombined_false_nogrow (s : DState) (k h v : Nat)
    (hg : needsGrow s.d.ma_keys = false) :
    insertNewCombined false s k h v
      = (Except.ok (),
         freshTag s
           { s.d with
             ma_keys :=
               { s.d.ma_keys with
                 slots := s.d.ma_keys.slots ++ [.entry k h (some v)],
                 kv_version := 0,
                 generation := s.d.ma_keys.generation + 1 },
             ma_used := s.d.ma_used + 1 }) := by
  simp [insertNewCombined, hg]

theorem insertNewCombined_err {a : Bool} {s s' : DState} {k h v : Nat}
    {e : DictError} (hrun : insertNewCombined a s k h v = (Except.error e, s')) :
    e = .outOfMemory ∧ s' = s := by
  cases a with
  | true =>
      rw [insertNewCombined_true] at hrun
      simp at hrun
  | false =>
      cases hg : needsGrow s.d.ma_keys with
      | true =>
          rw [insertNewCombined_false_grow s k h v hg] at hrun
          cases hrun
          exact ⟨rfl, rfl⟩
      | false =>
          rw [insertNewCombined_false_nogrow s k h v hg] at hrun
          simp at hrun

theorem insertPrivatized_true (s : DState) (k h v : Nat) :
    insertPrivatized true s k h v
      = (Except.ok (),
         freshTag s
           { privatizeD s.d with
             ma_keys :=
               { (privatizeD s.d).ma_keys with
                 slots := (privatizeD s.d).ma_keys.slots ++ [.entry k h (some v)] },
             ma_used := (privatizeD s.d).ma_used + 1 }) := rfl

theorem insertPrivatized_false (s : DState) (k h v : Nat) :
    insertPrivatized false s k h v = (Except.error .outOfMemory, s) := rfl

theorem privatizeD_of_split {d : PyDictObject} {vals : List (Option Nat)}
    (hv : d.ma_values = some vals) :
    privatizeD d
      = { d with
          ma_keys :=
            { slots := privSlots d.ma_keys.slots vals,
              capacity := pow2Ge (3 * ((privSlots d.ma_keys.slots vals).length + 1)),
              mode := .combined,
              kv_version := 0,
              generation := d.ma_keys.generation + 1 },
          ma_values := none } := by
  unfold privatizeD
  rw [hv]

theorem nodupB_append_singleton {l : List Nat} {x : Nat}
    (hnd : nodupB l = true) (hx : x ∉ l) : nodupB (l ++ [x]) = true := by
  rw [nodupB_iff] at hnd ⊢
  rw [List.nodup_append]
  refine ⟨hnd, List.nodup_singleton x, ?_⟩
  intro a ha hb
  simp only [List.mem_singleton] at hb
  exact hx (hb ▸ ha)

theorem findC_none_of_overwriteC_none {k h v : Nat} {slots : List KSlot}
    (ho : overwriteC k h v slots = none) : findC k h slots = none := by
  have hiso := overwriteC_isSome k h v slots
  rw [ho] at hiso
  cases hf : findC k h slots
  · rfl
  · rw [hf] at hiso
    simp at hiso

theorem dSet_get_self (s : DState) (k v : Nat) :
    ((dSet true s k v).2).d.get k = some v := by
  unfold dSet PyDictObject.get
  rcases hv : s.d.ma_values with _ | vals
  · rcases ho : overwriteC k (hashFn k) v s.d.ma_keys.slots with _ | slots'
    · simp only [dSetKH, hv, ho]
      rw [insertNewCombined_true]
      rw [getKH_combined (by simp [freshTag, hv])]
      simp only [freshTag]
      rw [findC_append_none _ (by rw [insBase_findC]; exact findC_none_of_overwriteC_none ho)]
      rw [findC_singleton_match]
      rfl
    · simp only [dSetKH, hv, ho]
      rw [getKH_combined (by simp [freshTag, hv])]
      simp only [freshTag]
      rw [overwriteC_findC_self ho]
      rfl
  · rcases hu : updateS k (hashFn k) (some v) s.d.ma_keys.slots vals with _ | ⟨old, vals'⟩
    · simp only [dSetKH, hv, hu]
      rw [insertPrivatized_true]
      rw [getKH_combined (by simp [freshTag, privatizeD_of_split hv])]
      simp only [freshTag, privatizeD_of_split hv]
      rw [findC_append_none _ (privSlots_findC_none hu)]
      rw [findC_singleton_match]
      rfl
    · simp only [dSetKH, hv, hu]
      cases old with
      | none =>
          simp only [Option.isSome_none, Bool.false_eq_true, if_false]
          rw [getKH_split (w := vals') (by simp [freshTag])]
          simp only [freshTag]
          rw [updateS_findS_self hu]
          rfl
      | some w =>
          simp only [Option.isSome_some, if_true]
          rw [getKH_split (w := vals') (by simp [freshTag])]
          simp only [freshTag]
          rw [updateS_findS_self hu]
          rfl

theorem dSetKH_get_other {s : DState} {k' : Nat} (a : Bool) (v' k : Nat)
    (hnd : nodupB (entryKeys s.d.ma_keys.slots) = true)
    (hne : k' ≠ k) :
    ((dSetKH a s k' v' (hashFn k')).2).d.get k = s.d.get k := by
  have hnem : ¬(hashFn k' = hashFn k ∧ k' = k) := fun hc => hne hc.2
  unfold PyDictObject.get
  rcases hv : s.d.ma_values with _ | vals
  · rcases ho : overwriteC k' (hashFn k') v' s.d.ma_keys.slots with _ | slots'
    · cases a with
      | true =>
          simp only [dSetKH, hv, ho]
          rw [insertNewCombined_true]
          rw [getKH_combined (by simp [freshTag, hv]), getKH_combined hv]
          simp only [freshTag]
          rcases hf : findC k (hashFn k) s.d.ma_keys.slots with _ | cv
          · rw [findC_append_none _ (by rw [insBase_findC]; exact hf)]
            rw [findC_singleton_nomatch _ hnem]
          · rw [findC_append_some _ (by rw [insBase_findC]; exact hf)]
      | false =>
          simp only [dSetKH, hv, ho]
          cases hg : needsGrow s.d.ma_keys with
          | true => rw [insertNewCombined_false_grow s k' (hashFn k') v' hg]
          | false =>
              rw [insertNewCombined_false_nogrow s k' (hashFn k') v' hg]
              rw [getKH_combined (by simp [freshTag, hv]), getKH_combined hv]
              simp only [freshTag]
              rcases hf : findC k (hashFn k) s.d.ma_keys.slots with _ | cv
              · rw [findC_append_none _ hf]
                rw [findC_singleton_nomatch _ hnem]
              · rw [findC_append_some _ hf]
    · simp only [dSetKH, hv, ho]
      rw [getKH_combined (by simp [freshTag, hv]), getKH_combined hv]
      simp only [freshTag]
      rw [overwriteC_findC_other ho hnem]
  · rcases hu : updateS k' (hashFn k') (some v') s.d.ma_keys.slots vals with _ | ⟨old, vals'⟩
    · cases a with
      | true =>
          simp only [dSetKH, hv, hu]
          rw [insertPrivatized_true]
          rw [getKH_combined (by simp [freshTag, privatizeD_of_split hv]),
            getKH_split hv]
          simp only [freshTag, privatizeD_of_split hv]
          rcases hfp : findC k (hashFn k) (privSlots s.d.ma_keys.slots vals)
            with _ | cv
          · rw [findC_append_none _ hfp]
            rw [findC_singleton_nomatch _ hnem]
            rw [← privSlots_findC_join hnd, hfp]
          · rw [findC_append_some _ hfp]
            rw [← privSlots_findC_join hnd, hfp]
      | false =>
          simp only [dSetKH, hv, hu]
          rw [insertPrivatized_false]
    · simp only [dSetKH, hv, hu]
      cases old with
      | none =>
          simp only [Option.isSome_none, Bool.false_eq_true, if_false]
          rw [getKH_split (w := vals') (by simp [freshTag]), getKH_split hv]
          simp only [freshTag]
          rw [updateS_findS_other hu hnem]
      | some w =>
          simp only [Option.isSome_some, if_true]
          rw [getKH_split (w := vals') (by simp [freshTag]), getKH_split hv]
          simp only [freshTag]
          rw [updateS_findS_other hu hnem]

theorem WFdict_combined_iff {d : PyDictObject} (hv : d.ma_values = none) :
    WFdict d = true
      ↔ d.ma_keys.mode = .combined ∧ d.ma_keys.slots.all slotComb = true
          ∧ d.ma_used = liveCount d := by
  simp [WFdict, hv, Bool.and_eq_true, beq_iff_eq, and_assoc]

theorem WFdict_split_iff {d : PyDictObject} {w : List (Option Nat)}
    (hv : d.ma_values = some w) :
    WFdict d = true
      ↔ d.ma_keys.mode = .split ∧ w.length = d.ma_keys.slots.length
          ∧ d.ma_keys.slots.all slotSplit = true ∧ d.ma_used = liveCount d := by
  simp [WFdict, hv, Bool.and_eq_true, beq_iff_eq, and_assoc]

theorem WFstate_iff (s : DState) :
    WFstate s = true
      ↔ WFdict s.d = true ∧ s.d.ma_version_tag < s.verOracle
          ∧ 1 ≤ s.keysOracle ∧ s.d.ma_keys.kv_version < s.keysOracle := by
  simp [WFstate, Bool.and_eq_true, and_assoc]

theorem Good_iff (s : DState) :
    Good s = true
      ↔ WFstate s = true ∧ s.d.ma_keys.slots.all hashOKslot = true
          ∧ nodupB (entryKeys s.d.ma_keys.slots) = true := by
  simp [Good, hashOK, Bool.and_eq_true, and_assoc]

theorem insertNewCombined_false_eq_true {s : DState} {k h v : Nat}
    (hg : needsGrow s.d.ma_keys = false) :
    insertNewCombined false s k h v = insertNewCombined true s k h v := by
  rw [insertNewCombined_false_nogrow s k h v hg, insertNewCombined_true]
  simp [insBase, hg]

theorem WFstate_insertNewCombined (s : DState) (k h v : Nat)
    (hv : s.d.ma_values = none)
    (hmode : s.d.ma_keys.mode = .combined)
    (hcomb : s.d.ma_keys.slots.all slotComb = true)
    (husd : s.d.ma_used = liveCount s.d)
    (hko : 1 ≤ s.keysOracle) :
    WFstate (insertNewCombined true s k h v).2 = true := by
  rw [insertNewCombined_true, WFstate_iff]
  refine ⟨?_, ?_, hko, ?_⟩
  · rw [WFdict_combined_iff (by simp [freshTag, hv])]
    refine ⟨hmode, ?_, ?_⟩
    · show (insBase s.d.ma_keys ++ [KSlot.entry k h (some v)]).all slotComb = true
      rw [List.all_append]
      simp [insBase_all hcomb, slotComb]
    · rw [liveCount_combined (by simp [freshTag, hv])]
      show s.d.ma_used + 1
        = liveLen (insBase s.d.ma_keys ++ [KSlot.entry k h (some v)])
      rw [liveLen_append, insBase_liveLen, liveLen_singleton_live,
        husd, liveCount_combined hv]
  · show s.verOracle < s.verOracle + 1
    omega
  · show (0:Nat) < s.keysOracle
    omega

theorem WFstate_insertPrivatized (s : DState) (k h v : Nat)
    {vals : List (Option Nat)}
    (hv : s.d.ma_values = some vals)
    (husd : s.d.ma_used = liveCount s.d)
    (hko : 1 ≤ s.keysOracle) :
    WFstate (insertPrivatized true s k h v).2 = true := by
  rw [insertPrivatized_true, WFstate_iff]
  refine ⟨?_, ?_, hko, ?_⟩
  · rw [WFdict_combined_iff (by simp [freshTag, privatizeD_of_split hv])]
    refine ⟨?_, ?_, ?_⟩
    · show (privatizeD s.d).ma_keys.mode = .combined
      rw [privatizeD_of_split hv]
    · show ((privatizeD s.d).ma_keys.slots ++ [KSlot.entry k h (some v)]).all slotComb
        = true
      rw [List.all_append]
      rw [privatizeD_of_split hv]
      simp [privSlots_slotComb, slotComb]
    · rw [liveCount_combined (by simp [freshTag, privatizeD_of_split hv])]
      show (privatizeD s.d).ma_used + 1
        = liveLen ((privatizeD s.d).ma_keys.slots ++ [KSlot.entry k h (some v)])
      rw [liveLen_append, liveLen_singleton_live]
      rw [privatizeD_of_split hv]
      show s.d.ma_used + 1
        = liveLen (privSlots s.d.ma_keys.slots vals) + 1
      rw [privSlots_liveLen, husd, liveCount_split hv]
  · show s.verOracle < s.verOracle + 1
    omega
  · rw [privatizeD_of_split hv]
    show (0:Nat) < s.keysOracle
    omega

theorem WFstate_dSetKH (a : Bool) (s : DState) (k v h : Nat)
    (hW : WFstate s = true) : WFstate (dSetKH a s k v h).2 = true := by
  rw [WFstate_iff] at hW
  obtain ⟨hWd, htag, hko, hkv⟩ := hW
  rcases hv : s.d.ma_values with _ | vals
  · rw [WFdict_combined_iff hv] at hWd
    obtain ⟨hmode, hcomb, husd⟩ := hWd
    rcases ho : overwriteC k h v s.d.ma_keys.slots with _ | slots'
    · cases a with
      | true =>
          simp only [dSetKH, hv, ho]
          exact WFstate_insertNewCombined s k h v hv hmode hcomb husd hko
      | false =>
          simp only [dSetKH, hv, ho]
          cases hg : needsGrow s.d.ma_keys with
          | true =>
              rw [insertNewCombined_false_grow s k h v hg]
              rw [WFstate_iff]
              exact ⟨(WFdict_combined_iff hv).mpr ⟨hmode, hcomb, husd⟩,
                htag, hko, hkv⟩
          | false =>
              rw [insertNewCombined_false_eq_true hg]
              exact WFstate_insertNewCombined s k h v hv hmode hcomb husd hko
    · simp only [dSetKH, hv, ho]
      rw [WFstate_iff]
      refine ⟨?_, ?_, hko, ?_⟩
      · rw [WFdict_combined_iff (by simp [freshTag, hv])]
        refine ⟨hmode, overwriteC_slotComb ho hcomb, ?_⟩
        rw [liveCount_combined (by simp [freshTag, hv])]
        show s.d.ma_used = liveLen slots'
        rw [overwriteC_liveLen ho hcomb, husd, liveCount_combined hv]
      · show s.verOracle < s.verOracle + 1
        omega
      · show s.d.ma_keys.kv_version < s.keysOracle
        exact hkv
  · rw [WFdict_split_iff hv] at hWd
    obtain ⟨hmode, hlen, hsplit, husd⟩ := hWd
    rcases hu : updateS k h (some v) s.d.ma_keys.slots vals with _ | ⟨old, vals'⟩
    · cases a with
      | true =>
          simp only [dSetKH, hv, hu]
          exact WFstate_insertPrivatized s k h v hv husd hko
      | false =>
          simp only [dSetKH, hv, hu]
          rw [insertPrivatized_false]
          rw [WFstate_iff]
          exact ⟨(WFdict_split_iff hv).mpr ⟨hmode, hlen, hsplit, husd⟩,
            htag, hko, hkv⟩
    · have hbal := updateS_liveLenS hu
      have hlen' := updateS_length hu
      simp only [dSetKH, hv, hu]
      cases old with
      | some w =>
          simp only [Option.isSome_some, if_true]
          rw [WFstate_iff]
          refine ⟨?_, ?_, hko, ?_⟩
          · rw [WFdict_split_iff (w := vals') (by simp [freshTag])]
            refine ⟨hmode, by rw [hlen']; exact hlen, hsplit, ?_⟩
            rw [liveCount_split (w := vals') (by simp [freshTag])]
            show s.d.ma_used = liveLenS s.d.ma_keys.slots vals'
            simp only [Option.isSome_some, Option.isSome_none, if_true] at hbal
            rw [husd, liveCount_split hv]
            omega
          · show s.verOracle < s.verOracle + 1
            omega
          · show s.d.ma_keys.kv_version < s.keysOracle
            exact hkv
      | none =>
          simp only [Option.isSome_none, Bool.false_eq_true, if_false]
          rw [WFstate_iff]
          refine ⟨?_, ?_, hko, ?_⟩
          · rw [WFdict_split_iff (w := vals') (by simp [freshTag])]
            refine ⟨hmode, by rw [hlen']; exact hlen, hsplit, ?_⟩
            rw [liveCount_split (w := vals') (by simp [freshTag])]
            show s.d.ma_used + 1 = liveLenS s.d.ma_keys.slots vals'
            simp only [Option.isSome_some, Option.isSome_none, if_true,
              Bool.false_eq_true, if_false] at hbal
            rw [husd, liveCount_split hv]
            omega
          · show s.verOracle < s.verOracle + 1
            omega
          · show s.d.ma_keys.kv_version < s.keysOracle
            exact hkv

theorem entryKeys_singleton (k h : Nat) (cv : Option Nat) :
    entryKeys [KSlot.entry k h cv] = [k] := by
  rw [entryKeys_cons_entry, entryKeys_nil]

theorem hashOKslot_self (k : Nat) (cv : Option Nat) :
    hashOKslot (KSlot.entry k (hashFn k) cv) = true := by
  simp [hashOKslot]

theorem Good_dSetKH (a : Bool) (s : DState) (k v : Nat)
    (hG : Good s = true) : Good (dSetKH a s k v (hashFn k)).2 = true := by
  rw [Good_iff] at hG
  obtain ⟨hW, hhash, hnd⟩ := hG
  rw [Good_iff]
  refine ⟨WFstate_dSetKH a s k v (hashFn k) hW, ?_⟩
  rw [WFstate_iff] at hW
  obtain ⟨hWd, htag, hko, hkv⟩ := hW
  rcases hv : s.d.ma_values with _ | vals
  · rcases ho : overwriteC k (hashFn k) v s.d.ma_keys.slots with _ | slots'
    · have hnm : k ∉ entryKeys s.d.ma_keys.slots :=
        not_mem_of_findC_none hhash (findC_none_of_overwriteC_none ho)
      have hgoal : (insBase s.d.ma_keys
            ++ [KSlot.entry k (hashFn k) (some v)]).all hashOKslot = true
          ∧ nodupB (entryKeys (insBase s.d.ma_keys
              ++ [KSlot.entry k (hashFn k) (some v)])) = true := by
        constructor
        · rw [List.all_append]
          simp [insBase_all hhash, hashOKslot_self]
        · rw [entryKeys_append, entryKeys_singleton, insBase_entryKeys]
          exact nodupB_append_singleton hnd hnm
      cases a with
      | true =>
          simp only [dSetKH, hv, ho]
          rw [insertNewCombined_true]
          exact hgoal
      | false =>
          simp only [dSetKH, hv, ho]
          cases hg : needsGrow s.d.ma_keys with
          | true =>
              rw [insertNewCombined_false_grow s k (hashFn k) v hg]
              exact ⟨hhash, hnd⟩
          | false =>
              rw [insertNewCombined_false_eq_true hg, insertNewCombined_true]
              exact hgoal
    · simp only [dSetKH, hv, ho]
      constructor
      · show slots'.all hashOKslot = true
        exact overwriteC_hashOK ho hhash
      · show nodupB (entryKeys slots') = true
        rw [overwriteC_entryKeys ho]
        exact hnd
  · rw [WFdict_split_iff hv] at hWd
    obtain ⟨hmode, hlen, hsplit, husd⟩ := hWd
    rcases hu : updateS k (hashFn k) (some v) s.d.ma_keys.slots vals
      with _ | ⟨old, vals'⟩
    · cases a with
      | true =>
          have hnm : k ∉ entryKeys s.d.ma_keys.slots :=
            not_mem_of_updateS_none hlen hhash hu
          simp only [dSetKH, hv, hu]
          rw [insertPrivatized_true]
          constructor
          · show ((privatizeD s.d).ma_keys.slots
              ++ [KSlot.entry k (hashFn k) (some v)]).all hashOKslot = true
            rw [List.all_append, privatizeD_of_split hv]
            simp [privSlots_hashOK vals hhash, hashOKslot_self]
          · show nodupB (entryKeys ((privatizeD s.d).ma_keys.slots
              ++ [KSlot.entry k (hashFn k) (some v)])) = true
            rw [entryKeys_append, entryKeys_singleton, privatizeD_of_split hv]
            show nodupB (entryKeys (privSlots s.d.ma_keys.slots vals) ++ [k])
              = true
            refine nodupB_append_singleton
              (nodupB_sublist
                (privSlots_entryKeys_sublist s.d.ma_keys.slots vals) hnd)
              fun hm =>
                hnm ((privSlots_entryKeys_sublist s.d.ma_keys.slots vals).mem hm)
      | false =>
          simp only [dSetKH, hv, hu]
          rw [insertPrivatized_false]
          exact ⟨hhash, hnd⟩
    · simp only [dSetKH, hv, hu]
      cases old with
      | some w =>
          simp only [Option.isSome_some, if_true]
          exact ⟨hhash, hnd⟩
      | none =>
          simp only [Option.isSome_none, Bool.false_eq_true, if_false]
          exact ⟨hhash, hnd⟩

theorem findC_isSome_of_slotComb {k h : Nat} {slots : List KSlot}
    {cv : Option Nat} (hcomb : slots.all slotComb = true)
    (hf : findC k h slots = some cv) : cv.isSome = true := by
  induction slots with
  | nil => simp [findC] at hf
  | cons s rest ih =>
      simp only [List.all_cons, Bool.and_eq_true] at hcomb
      cases s with
      | entry k' h' cv' =>
          simp only [findC] at hf
          split at hf
          · cases hf
            exact hcomb.1
          · exact ih hcomb.2 hf
      | tomb =>
          simp only [findC] at hf
          exact ih hcomb.2 hf

theorem dPopKH_state (s : DState) (k h : Nat) (dflt : Option Nat) :
    (dPopKH s k h dflt).2 = (dDeleteKH s k h).2 := by
  rcases hv : s.d.ma_values with _ | vals
  · rcases hd : deleteC k h s.d.ma_keys.slots with _ | ⟨w, slots'⟩
    · cases dflt <;> simp [dPopKH, dDeleteKH, hv, hd]
    · simp [dPopKH, dDeleteKH, hv, hd]
  · rcases hu : updateS k h none s.d.ma_keys.slots vals with _ | ⟨old, vals'⟩
    · cases dflt <;> simp [dPopKH, dDeleteKH, hv, hu]
    · cases old with
      | none => cases dflt <;> simp [dPopKH, dDeleteKH, hv, hu]
      | some w => simp [dPopKH, dDeleteKH, hv, hu]

theorem WFstate_dDeleteKH (s : DState) (k h : Nat)
    (hW : WFstate s = true) : WFstate (dDeleteKH s k h).2 = true := by
  rw [WFstate_iff] at hW
  obtain ⟨hWd, htag, hko, hkv⟩ := hW
  rcases hv : s.d.ma_values with _ | vals
  · rw [WFdict_combined_iff hv] at hWd
    obtain ⟨hmode, hcomb, husd⟩ := hWd
    rcases hd : deleteC k h s.d.ma_keys.slots with _ | ⟨w, slots'⟩
    · simp only [dDeleteKH, hv, hd]
      rw [WFstate_iff]
      exact ⟨(WFdict_combined_iff hv).mpr ⟨hmode, hcomb, husd⟩, htag, hko, hkv⟩
    · simp only [dDeleteKH, hv, hd]
      rw [WFstate_iff]
      refine ⟨?_, ?_, hko, ?_⟩
      · rw [WFdict_combined_iff (by simp [freshTag, hv])]
        refine ⟨hmode, deleteC_slotComb hd hcomb, ?_⟩
        rw [liveCount_combined (by simp [freshTag, hv])]
        show s.d.ma_used - 1 = liveLen slots'
        have := deleteC_liveLen hd
        rw [husd, liveCount_combined hv]
        omega
      · show s.verOracle < s.verOracle + 1
        omega
      · show (0:Nat) < s.keysOracle
        omega
  · rw [WFdict_split_iff hv] at hWd
    obtain ⟨hmode, hlen, hsplit, husd⟩ := hWd
    rcases hu : updateS k h none s.d.ma_keys.slots vals with _ | ⟨old, vals'⟩
    · simp only [dDeleteKH, hv, hu]
      rw [WFstate_iff]
      exact ⟨(WFdict_split_iff hv).mpr ⟨hmode, hlen, hsplit, husd⟩,
        htag, hko, hkv⟩
    · cases old with
      | none =>
          simp only [dDeleteKH, hv, hu]
          rw [WFstate_iff]
          exact ⟨(WFdict_split_iff hv).mpr ⟨hmode, hlen, hsplit, husd⟩,
            htag, hko, hkv⟩
      | some w =>
          have hbal := updateS_liveLenS hu
          have hlen' := updateS_length hu
          simp only [dDeleteKH, hv, hu]
          rw [WFstate_iff]
          refine ⟨?_, ?_, hko, ?_⟩
          · rw [WFdict_split_iff (w := vals') (by simp [freshTag])]
            refine ⟨hmode, by rw [hlen']; exact hlen, hsplit, ?_⟩
            rw [liveCount_split (w := vals') (by simp [freshTag])]
            show s.d.ma_used - 1 = liveLenS s.d.ma_keys.slots vals'
            simp only [Option.isSome_some, Option.isSome_none, if_true,
              Bool.false_eq_true, if_false] at hbal
            rw [husd, liveCount_split hv]
            omega
          · show s.verOracle < s.verOracle + 1
            omega
          · show s.d.ma_keys.kv_version < s.keysOracle
            exact hkv

theorem Good_dDeleteKH (s : DState) (k h : Nat)
    (hG : Good s = true) : Good (dDeleteKH s k h).2 = true := by
  rw [Good_iff] at hG
  obtain ⟨hW, hhash, hnd⟩ := hG
  rw [Good_iff]
  refine ⟨WFstate_dDeleteKH s k h hW, ?_⟩
  rcases hv : s.d.ma_values with _ | vals
  · rcases hd : deleteC k h s.d.ma_keys.slots with _ | ⟨w, slots'⟩
    · simp only [dDeleteKH, hv, hd]
      exact ⟨hhash, hnd⟩
    · simp only [dDeleteKH, hv, hd]
      constructor
      · show slots'.all hashOKslot = true
        exact deleteC_hashOK hd hhash
      · show nodupB (entryKeys slots') = true
        exact nodupB_sublist (deleteC_entryKeys_sublist hd) hnd
  · rcases hu : updateS k h none s.d.ma_keys.slots vals with _ | ⟨old, vals'⟩
    · simp only [dDeleteKH, hv, hu]
      exact ⟨hhash, hnd⟩
    · cases old with
      | none =>
          simp only [dDeleteKH, hv, hu]
          exact ⟨hhash, hnd⟩
      | some w =>
          simp only [dDeleteKH, hv, hu]
          exact ⟨hhash, hnd⟩

theorem WFstate_dPopKH (s : DState) (k h : Nat) (dflt : Option Nat)
    (hW : WFstate s = true) : WFstate (dPopKH s k h dflt).2 = true := by
  rw [dPopKH_state]
  exact WFstate_dDeleteKH s k h hW

theorem Good_dPopKH (s : DState) (k h : Nat) (dflt : Option Nat)
    (hG : Good s = true) : Good (dPopKH s k h dflt).2 = true := by
  rw [dPopKH_state]
  exact Good_dDeleteKH s k h hG

theorem WFstate_dSetDefault (a : Bool) (s : DState) (k dflt : Nat)
    (hW : WFstate s = true) : WFstate (dSetDefault a s k dflt).2 = true := by
  have hWkeep := hW
  rw [WFstate_iff] at hW
  obtain ⟨hWd, htag, hko, hkv⟩ := hW
  rcases hv : s.d.ma_values with _ | vals
  · rw [WFdict_combined_iff hv] at hWd
    obtain ⟨hmode, hcomb, husd⟩ := hWd
    rcases hf : findC k (hashFn k) s.d.ma_keys.slots with _ | cv
    · simp only [dSetDefault, dSetDefaultCounted, tickHash, tickFindC, hv, hf]
      cases a with
      | true => exact WFstate_insertNewCombined s k (hashFn k) dflt hv hmode hcomb husd hko
      | false =>
          cases hg : needsGrow s.d.ma_keys with
          | true =>
              rw [insertNewCombined_false_grow s k (hashFn k) dflt hg]
              exact hWkeep
          | false =>
              rw [insertNewCombined_false_eq_true hg]
              exact WFstate_insertNewCombined s k (hashFn k) dflt hv hmode hcomb husd hko
    · cases cv with
      | some v =>
          simp only [dSetDefault, dSetDefaultCounted, tickHash, tickFindC, hv, hf]
          exact hWkeep
      | none =>
          simp only [dSetDefault, dSetDefaultCounted, tickHash, tickFindC, hv, hf]
          cases a with
          | true => exact WFstate_insertNewCombined s k (hashFn k) dflt hv hmode hcomb husd hko
          | false =>
              cases hg : needsGrow s.d.ma_keys with
              | true =>
                  rw [insertNewCombined_false_grow s k (hashFn k) dflt hg]
                  exact hWkeep
              | false =>
                  rw [insertNewCombined_false_eq_true hg]
                  exact WFstate_insertNewCombined s k (hashFn k) dflt hv hmode hcomb husd hko
  · rw [WFdict_split_iff hv] at hWd
    obtain ⟨hmode, hlen, hsplit, husd⟩ := hWd
    rcases hu : updateS k (hashFn k) (some dflt) s.d.ma_keys.slots vals
      with _ | ⟨old, vals'⟩
    · simp only [dSetDefault, dSetDefaultCounted, tickHash, tickUpdateS, hv, hu]
      cases a with
      | true => exact WFstate_insertPrivatized s k (hashFn k) dflt hv husd hko
      | false =>
          rw [insertPrivatized_false]
          exact hWkeep
    · cases old with
      | some v =>
          simp only [dSetDefault, dSetDefaultCounted, tickHash, tickUpdateS, hv, hu]
          exact hWkeep
      | none =>
          have hbal := updateS_liveLenS hu
          have hlen' := updateS_length hu
          simp only [dSetDefault, dSetDefaultCounted, tickHash, tickUpdateS, hv, hu]
          rw [WFstate_iff]
          refine ⟨?_, ?_, hko, ?_⟩
          · rw [WFdict_split_iff (w := vals') (by simp [freshTag])]
            refine ⟨hmode, by rw [hlen']; exact hlen, hsplit, ?_⟩
            rw [liveCount_split (w := vals') (by simp [freshTag])]
            show s.d.ma_used + 1 = liveLenS s.d.ma_keys.slots vals'
            simp only [Option.isSome_some, Option.isSome_none, if_true,
              Bool.false_eq_true, if_false] at hbal
            rw [husd, liveCount_split hv]
            omega
          · show s.verOracle < s.verOracle + 1
            omega
          · show s.d.ma_keys.kv_version < s.keysOracle
            exact hkv

theorem Good_dSetDefault (a : Bool) (s : DState) (k dflt : Nat)
    (hG : Good s = true) : Good (dSetDefault a s k dflt).2 = true := by
  have hGkeep := hG
  rw [Good_iff] at hG
  obtain ⟨hW, hhash, hnd⟩ := hG
  rw [Good_iff]
  refine ⟨WFstate_dSetDefault a s k dflt hW, ?_⟩
  rw [WFstate_iff] at hW
  obtain ⟨hWd, htag, hko, hkv⟩ := hW
  rcases hv : s.d.ma_values with _ | vals
  · rw [WFdict_combined_iff hv] at hWd
    obtain ⟨hmode, hcomb, husd⟩ := hWd
    have hgoal : ∀ hh : findC k (hashFn k) s.d.ma_keys.slots = none,
        (insBase s.d.ma_keys
            ++ [KSlot.entry k (hashFn k) (some dflt)]).all hashOKslot = true
          ∧ nodupB (entryKeys (insBase s.d.ma_keys
              ++ [KSlot.entry k (hashFn k) (some dflt)])) = true := by
      intro hh
      constructor
      · rw [List.all_append]
        simp [insBase_all hhash, hashOKslot_self]
      · rw [entryKeys_append, entryKeys_singleton, insBase_entryKeys]
        exact nodupB_append_singleton hnd (not_mem_of_findC_none hhash hh)
    rcases hf : findC k (hashFn k) s.d.ma_keys.slots with _ | cv
    · simp only [dSetDefault, dSetDefaultCounted, tickHash, tickFindC, hv, hf]
      cases a with
      | true =>
          rw [insertNewCombined_true]
          exact hgoal hf
      | false =>
          cases hg : needsGrow s.d.ma_keys with
          | true =>
              rw [insertNewCombined_false_grow s k (hashFn k) dflt hg]
              exact ⟨hhash, hnd⟩
          | false =>
              rw [insertNewCombined_false_eq_true hg, insertNewCombined_true]
              exact hgoal hf
    · cases cv with
      | some v =>
          simp only [dSetDefault, dSetDefaultCounted, tickHash, tickFindC, hv, hf]
          exact ⟨hhash, hnd⟩
      | none =>
          have := findC_isSome_of_slotComb hcomb hf
          simp at this
  · rw [WFdict_split_iff hv] at hWd
    obtain ⟨hmode, hlen, hsplit, husd⟩ := hWd
    rcases hu : updateS k (hashFn k) (some dflt) s.d.ma_keys.slots vals
      with _ | ⟨old, vals'⟩
    · simp only [dSetDefault, dSetDefaultCounted, tickHash, tickUpdateS, hv, hu]
      cases a with
      | true =>
          have hnm : k ∉ entryKeys s.d.ma_keys.slots :=
            not_mem_of_updateS_none hlen hhash hu
          rw [insertPrivatized_true]
          constructor
          · show ((privatizeD s.d).ma_keys.slots
              ++ [KSlot.entry k (hashFn k) (some dflt)]).all hashOKslot = true
            rw [List.all_append, privatizeD_of_split hv]
            simp [privSlots_hashOK vals hhash, hashOKslot_self]
          · show nodupB (entryKeys ((privatizeD s.d).ma_keys.slots
              ++ [KSlot.entry k (hashFn k) (some dflt)])) = true
            rw [entryKeys_append, entryKeys_singleton, privatizeD_of_split hv]
            show nodupB (entryKeys (privSlots s.d.ma_keys.slots vals) ++ [k])
              = true
            refine nodupB_append_singleton
              (nodupB_sublist
                (privSlots_entryKeys_sublist s.d.ma_keys.slots vals) hnd)
              fun hm =>
                hnm ((privSlots_entryKeys_sublist s.d.ma_keys.slots vals).mem hm)
      | false =>
          rw [insertPrivatized_false]
          exact ⟨hhash, hnd⟩
    · cases old with
      | some v =>
          simp only [dSetDefault, dSetDefaultCounted, tickHash, tickUpdateS, hv, hu]
          exact ⟨hhash, hnd⟩
      | none =>
          simp only [dSetDefault, dSetDefaultCounted, tickHash, tickUpdateS, hv, hu]
          exact ⟨hhash, hnd⟩

theorem overwriteC_shape {k h v : Nat} {slots slots' : List KSlot}
    (ho : overwriteC k h v slots = some slots') :
    slots'.map slotKeyHash = slots.map slotKeyHash := by
  induction slots generalizing slots' with
  | nil => simp [overwriteC] at ho
  | cons s rest ih =>
      cases s with
      | entry k' h' cv =>
          simp only [overwriteC] at ho
          split at ho
          · cases ho
            simp [slotKeyHash]
          · rcases Option.map_eq_some'.mp ho with ⟨r, hr, rfl⟩
            simp [slotKeyHash, ih hr]
      | tomb =>
          simp only [overwriteC] at ho
          rcases Option.map_eq_some'.mp ho with ⟨r, hr, rfl⟩
          simp [slotKeyHash, ih hr]

/-- Abstract transition relation of one operation for the oracle claims:
oracles never decrease; the version tag is either untouched or freshly
issued at or above the pre-state oracle; a nonzero keys version is either
carried over together with the key shape, or freshly issued at or above
the pre-state keys oracle. -/
def StepR (s s' : DState) : Prop :=
  s.verOracle ≤ s'.verOracle ∧ s.keysOracle ≤ s'.keysOracle
    ∧ (s'.d.ma_version_tag = s.d.ma_version_tag
        ∨ s.verOracle ≤ s'.d.ma_version_tag)
    ∧ (s'.d.ma_keys.kv_version ≠ 0 →
        (s'.d.ma_keys.kv_version = s.d.ma_keys.kv_version
           ∧ keyShape s'.d.ma_keys = keyShape s.d.ma_keys)
          ∨ s.keysOracle ≤ s'.d.ma_keys.kv_version)

theorem stepR_refl (s : DState) : StepR s s :=
  ⟨Nat.le_refl _, Nat.le_refl _, Or.inl rfl, fun _ => Or.inl ⟨rfl, rfl⟩⟩

theorem stepR_trans {s1 s2 s3 : DState}
    (h12 : StepR s1 s2) (h23 : StepR s2 s3) : StepR s1 s3 := by
  obtain ⟨hv12, hk12, ht12, hkv12⟩ := h12
  obtain ⟨hv23, hk23, ht23, hkv23⟩ := h23
  refine ⟨Nat.le_trans hv12 hv23, Nat.le_trans hk12 hk23, ?_, ?_⟩
  · rcases ht23 with h | h
    · rw [h]
      exact ht12
    · exact Or.inr (Nat.le_trans hv12 h)
  · intro hne
    rcases hkv23 hne with ⟨heq, hsh⟩ | hge
    · rcases hkv12 (by rw [← heq]; exact hne) with ⟨heq2, hsh2⟩ | hge2
      · exact Or.inl ⟨heq.trans heq2, hsh.trans hsh2⟩
      · exact Or.inr (by rw [heq]; exact hge2)
    · exact Or.inr (Nat.le_trans hk12 hge)

theorem stepR_freshTag_kv0 {s : DState} {d' : PyDictObject}
    (hkv : d'.ma_keys.kv_version = 0) : StepR s (freshTag s d') := by
  refine ⟨?_, Nat.le_refl _, Or.inr (Nat.le_refl _), fun hne => ?_⟩
  · show s.verOracle ≤ s.verOracle + 1
    omega
  · exact absurd hkv hne

theorem stepR_freshTag_keep {s : DState} {d' : PyDictObject}
    (hkv : d'.ma_keys.kv_version = s.d.ma_keys.kv_version)
    (hsh : keyShape d'.ma_keys = keyShape s.d.ma_keys) :
    StepR s (freshTag s d') := by
  refine ⟨?_, Nat.le_refl _, Or.inr (Nat.le_refl _), fun hne => ?_⟩
  · show s.verOracle ≤ s.verOracle + 1
    omega
  · exact Or.inl ⟨hkv, hsh⟩

theorem stepR_dSetKH (a : Bool) (s : DState) (k v h : Nat) :
    StepR s (dSetKH a s k v h).2 := by
  rcases hv : s.d.ma_values with _ | vals
  · rcases ho : overwriteC k h v s.d.ma_keys.slots with _ | slots'
    · cases a with
      | true =>
          simp only [dSetKH, hv, ho]
          rw [insertNewCombined_true]
          exact stepR_freshTag_kv0 rfl
      | false =>
          simp only [dSetKH, hv, ho]
          cases hg : needsGrow s.d.ma_keys with
          | true =>
              rw [insertNewCombined_false_grow s k h v hg]
              exact stepR_refl s
          | false =>
              rw [insertNewCombined_false_eq_true hg, insertNewCombined_true]
              exact stepR_freshTag_kv0 rfl
    · simp only [dSetKH, hv, ho]
      refine stepR_freshTag_keep rfl ?_
      show slots'.map slotKeyHash = keyShape s.d.ma_keys
      rw [overwriteC_shape ho]
      rfl
  · rcases hu : updateS k h (some v) s.d.ma_keys.slots vals with _ | ⟨old, vals'⟩
    · cases a with
      | true =>
          simp only [dSetKH, hv, hu]
          rw [insertPrivatized_true]
          refine stepR_freshTag_kv0 ?_
          show (privatizeD s.d).ma_keys.kv_version = 0
          rw [privatizeD_of_split hv]
      | false =>
          simp only [dSetKH, hv, hu]
          rw [insertPrivatized_false]
          exact stepR_refl s
    · simp only [dSetKH, hv, hu]
      cases old with
      | some w =>
          simp only [Option.isSome_some, if_true]
          exact stepR_freshTag_keep rfl rfl
      | none =>
          simp only [Option.isSome_none, Bool.false_eq_true, if_false]
          exact stepR_freshTag_keep rfl rfl

theorem stepR_dDeleteKH (s : DState) (k h : Nat) :
    StepR s (dDeleteKH s k h).2 := by
  rcases hv : s.d.ma_values with _ | vals
  · rcases hd : deleteC k h s.d.ma_keys.slots with _ | ⟨w, slots'⟩
    · simp only [dDeleteKH, hv, hd]
      exact stepR_refl s
    · simp only [dDeleteKH, hv, hd]
      exact stepR_freshTag_kv0 rfl
  · rcases hu : updateS k h none s.d.ma_keys.slots vals with _ | ⟨old, vals'⟩
    · simp only [dDeleteKH, hv, hu]
      exact stepR_refl s
    · cases old with
      | none =>
          simp only [dDeleteKH, hv, hu]
          exact stepR_refl s
      | some w =>
          simp only [dDeleteKH, hv, hu]
          exact stepR_freshTag_keep rfl rfl

theorem stepR_dPopKH (s : DState) (k h : Nat) (dflt : Option Nat) :
    StepR s (dPopKH s k h dflt).2 := by
  rw [dPopKH_state]
  exact stepR_dDeleteKH s k h

theorem stepR_dSetDefault (a : Bool) (s : DState) (k dflt : Nat) :
    StepR s (dSetDefault a s k dflt).2 := by
  rcases hv : s.d.ma_values with _ | vals
  · rcases hf : findC k (hashFn k) s.d.ma_keys.slots with _ | cv
    · simp only [dSetDefault, dSetDefaultCounted, tickHash, tickFindC, hv, hf]
      cases a with
      | true =>
          rw [insertNewCombined_true]
          exact stepR_freshTag_kv0 rfl
      | false =>
          cases hg : needsGrow s.d.ma_keys with
          | true =>
              rw [insertNewCombined_false_grow s k (hashFn k) dflt hg]
              exact stepR_refl s
          | false =>
              rw [insertNewCombined_false_eq_true hg, insertNewCombined_true]
              exact stepR_freshTag_kv0 rfl
    · cases cv with
      | some v =>
          simp only [dSetDefault, dSetDefaultCounted, tickHash, tickFindC, hv, hf]
          exact stepR_refl s
      | none =>
          simp only [dSetDefault, dSetDefaultCounted, tickHash, tickFindC, hv, hf]
          cases a with
          | true =>
              rw [insertNewCombined_true]
              exact stepR_freshTag_kv0 rfl
          | false =>
              cases hg : needsGrow s.d.ma_keys with
              | true =>
                  rw [insertNewCombined_false_grow s k (hashFn k) dflt hg]
                  exact stepR_refl s
              | false =>
                  rw [insertNewCombined_false_eq_true hg, insertNewCombined_true]
                  exact stepR_freshTag_kv0 rfl
  · rcases hu : updateS k (hashFn k) (some dflt) s.d.ma_keys.slots vals
      with _ | ⟨old, vals'⟩
    · simp only [dSetDefault, dSetDefaultCounted, tickHash, tickUpdateS, hv, hu]
      cases a with
      | true =>
          rw [insertPrivatized_true]
          refine stepR_freshTag_kv0 ?_
          show (privatizeD s.d).ma_keys.kv_version = 0
          rw [privatizeD_of_split hv]
      | false =>
          rw [insertPrivatized_false]
          exact stepR_refl s
    · cases old with
      | some v =>
          simp only [dSetDefault, dSetDefaultCounted, tickHash, tickUpdateS, hv, hu]
          exact stepR_refl s
      | none =>
          simp only [dSetDefault, dSetDefaultCounted, tickHash, tickUpdateS, hv, hu]
          exact stepR_freshTag_keep rfl rfl

theorem stepR_getVersion (s : DState) :
    StepR s (getVersionForCurrentState s).2 := by
  by_cases h1 : s.d.ma_keys.kv_version = 0
  · by_cases h2 : s.keysOracle < 2 ^ 32
    · simp only [getVersionForCurrentState, h1, ne_eq, not_true_eq_false,
        if_false, if_pos h2]
      refine ⟨Nat.le_refl _, ?_, Or.inl rfl, fun hne => Or.inr ?_⟩
      · show s.keysOracle ≤ s.keysOracle + 1
        omega
      · show s.keysOracle ≤ s.keysOracle
        exact Nat.le_refl _
    · simp only [getVersionForCurrentState, h1, ne_eq, not_true_eq_false,
        if_false, if_neg h2]
      exact stepR_refl s
  · simp only [getVersionForCurrentState, ne_eq, h1, not_false_eq_true,
      if_true]
    exact stepR_refl s

theorem stepR_mergeLoop (a : Bool) (pol : MergePolicy)
    (entries : List (Nat × Nat)) :
    ∀ s n, StepR s (mergeLoop a pol entries s n).2.1 := by
  induction entries with
  | nil => exact fun s n => stepR_refl s
  | cons p rest ih =>
      intro s n
      obtain ⟨k, v⟩ := p
      show StepR s (mergeLoop a pol ((k, v) :: rest) s n).2.1
      simp only [mergeLoop]
      split
      · cases pol with
        | firstWins => exact ih s n
        | lastWins =>
            rcases hset : dSet a s k v with ⟨r, s'⟩
            have hstep : StepR s s' := by
              have := stepR_dSetKH a s k v (hashFn k)
              rw [show dSetKH a s k v (hashFn k) = dSet a s k v from rfl,
                hset] at this
              exact this
            cases r with
            | ok u => exact stepR_trans hstep (ih s' (n + 1))
            | error e => exact hstep
        | raiseOnConflict => exact stepR_refl s
      · rcases hset : dSet a s k v with ⟨r, s'⟩
        have hstep : StepR s s' := by
          have := stepR_dSetKH a s k v (hashFn k)
          rw [show dSetKH a s k v (hashFn k) = dSet a s k v from rfl,
            hset] at this
          exact this
        cases r with
        | ok u => exact stepR_trans hstep (ih s' (n + 1))
        | error e => exact hstep

theorem stepR_applyOp (s : DState) (op : Op) : StepR s (applyOp s op) := by
  cases op with
  | set a k v => exact stepR_dSetKH a s k v (hashFn k)
  | setKH a k v h => exact stepR_dSetKH a s k v h
  | setDef a k dflt => exact stepR_dSetDefault a s k dflt
  | del k => exact stepR_dDeleteKH s k (hashFn k)
  | delKH k h => exact stepR_dDeleteKH s k h
  | popO k dflt => exact stepR_dPopKH s k (hashFn k) dflt
  | getO k => exact stepR_refl s
  | containsO k => exact stepR_refl s
  | mergeO a other pol => exact stepR_mergeLoop a pol (liveEntries other) s 0
  | versionO => exact stepR_getVersion s

theorem stepR_runOps (ops : List Op) (s : DState) :
    StepR s (runOps ops s) := by
  induction ops generalizing s with
  | nil => exact stepR_refl s
  | cons op rest ih =>
      exact stepR_trans (stepR_applyOp s op) (ih (applyOp s op))

theorem WFdict_set_kv {d : PyDictObject} (x : Nat) (h : WFdict d = true) :
    WFdict { d with ma_keys := { d.ma_keys with kv_version := x } } = true := by
  rcases hv : d.ma_values with _ | vals
  · rw [WFdict_combined_iff hv] at h
    rw [WFdict_combined_iff (by simp [hv])]
    obtain ⟨h1, h2, h3⟩ := h
    refine ⟨h1, h2, ?_⟩
    show d.ma_used = liveLen d.ma_keys.slots
    rw [liveCount_combined hv] at h3
    exact h3
  · rw [WFdict_split_iff hv] at h
    rw [WFdict_split_iff (w := vals) (by simp [hv])]
    obtain ⟨h1, h2, h3, h4⟩ := h
    refine ⟨h1, h2, h3, ?_⟩
    show d.ma_used = liveLenS d.ma_keys.slots vals
    rw [liveCount_split hv] at h4
    exact h4

theorem WFstate_getVersion (s : DState) (hW : WFstate s = true) :
    WFstate (getVersionForCurrentState s).2 = true := by
  by_cases h1 : s.d.ma_keys.kv_version = 0
  · by_cases h2 : s.keysOracle < 2 ^ 32
    · simp only [getVersionForCurrentState, h1, ne_eq, not_true_eq_false,
        if_false, if_pos h2]
      rw [WFstate_iff] at hW ⊢
      obtain ⟨hWd, htag, hko, hkv⟩ := hW
      refine ⟨WFdict_set_kv s.keysOracle hWd, htag, ?_, ?_⟩
      · show 1 ≤ s.keysOracle + 1
        omega
      · show s.keysOracle < s.keysOracle + 1
        omega
    · simp only [getVersionForCurrentState, h1, ne_eq, not_true_eq_false,
        if_false, if_neg h2]
      exact hW
  · simp only [getVersionForCurrentState, ne_eq, h1, not_false_eq_true,
      if_true]
    exact hW

theorem Good_getVersion (s : DState) (hG : Good s = true) :
    Good (getVersionForCurrentState s).2 = true := by
  rw [Good_iff] at hG
  obtain ⟨hW, hhash, hnd⟩ := hG
  rw [Good_iff]
  refine ⟨WFstate_getVersion s hW, ?_⟩
  by_cases h1 : s.d.ma_keys.kv_version = 0
  · by_cases h2 : s.keysOracle < 2 ^ 32
    · simp only [getVersionForCurrentState, h1, ne_eq, not_true_eq_false,
        if_false, if_pos h2]
      exact ⟨hhash, hnd⟩
    · simp only [getVersionForCurrentState, h1, ne_eq, not_true_eq_false,
        if_false, if_neg h2]
      exact ⟨hhash, hnd⟩
  · simp only [getVersionForCurrentState, ne_eq, h1, not_false_eq_true,
      if_true]
    exact ⟨hhash, hnd⟩

theorem WFstate_mergeLoop (a : Bool) (pol : MergePolicy)
    (entries : List (Nat × Nat)) :
    ∀ s n, WFstate s = true → WFstate (mergeLoop a pol entries s n).2.1 = true := by
  induction entries with
  | nil => exact fun s n hW => hW
  | cons p rest ih =>
      intro s n hW
      obtain ⟨k, v⟩ := p
      show WFstate (mergeLoop a pol ((k, v) :: rest) s n).2.1 = true
      simp only [mergeLoop]
      split
      · cases pol with
        | firstWins => exact ih s n hW
        | lastWins =>
            rcases hset : dSet a s k v with ⟨r, s'⟩
            have hW' : WFstate s' = true := by
              have := WFstate_dSetKH a s k v (hashFn k) hW
              rw [show dSetKH a s k v (hashFn k) = dSet a s k v from rfl,
                hset] at this
              exact this
            cases r with
            | ok u => exact ih s' (n + 1) hW'
            | error e => exact hW'
        | raiseOnConflict => exact hW
      · rcases hset : dSet a s k v with ⟨r, s'⟩
        have hW' : WFstate s' = true := by
          have := WFstate_dSetKH a s k v (hashFn k) hW
          rw [show dSetKH a s k v (hashFn k) = dSet a s k v from rfl,
            hset] at this
          exact this
        cases r with
        | ok u => exact ih s' (n + 1) hW'
        | error e => exact hW'

theorem Good_mergeLoop (a : Bool) (pol : MergePolicy)
    (entries : List (Nat × Nat)) :
    ∀ s n, Good s = true → Good (mergeLoop a pol entries s n).2.1 = true := by
  induction entries with
  | nil => exact fun s n hG => hG
  | cons p rest ih =>
      intro s n hG
      obtain ⟨k, v⟩ := p
      show Good (mergeLoop a pol ((k, v) :: rest) s n).2.1 = true
      simp only [mergeLoop]
      split
      · cases pol with
        | firstWins => exact ih s n hG
        | lastWins =>
            rcases hset : dSet a s k v with ⟨r, s'⟩
            have hG' : Good s' = true := by
              have := Good_dSetKH a s k v hG
              rw [show dSetKH a s k v (hashFn k) = dSet a s k v from rfl,
                hset] at this
              exact this
            cases r with
            | ok u => exact ih s' (n + 1) hG'
            | error e => exact hG'
        | raiseOnConflict => exact hG
      · rcases hset : dSet a s k v with ⟨r, s'⟩
        have hG' : Good s' = true := by
          have := Good_dSetKH a s k v hG
          rw [show dSetKH a s k v (hashFn k) = dSet a s k v from rfl,
            hset] at this
          exact this
        cases r with
        | ok u => exact ih s' (n + 1) hG'
        | error e => exact hG'

theorem WFstate_applyOp (s : DState) (op : Op) (hW : WFstate s = true) :
    WFstate (applyOp s op) = true := by
  cases op with
  | set a k v => exact WFstate_dSetKH a s k v (hashFn k) hW
  | setKH a k v h => exact WFstate_dSetKH a s k v h hW
  | setDef a k dflt => exact WFstate_dSetDefault a s k dflt hW
  | del k => exact WFstate_dDeleteKH s k (hashFn k) hW
  | delKH k h => exact WFstate_dDeleteKH s k h hW
  | popO k dflt => exact WFstate_dPopKH s k (hashFn k) dflt hW
  | getO k => exact hW
  | containsO k => exact hW
  | mergeO a other pol => exact WFstate_mergeLoop a pol (liveEntries other) s 0 hW
  | versionO => exact WFstate_getVersion s hW

theorem WFstate_runOps (ops : List Op) (s : DState) (hW : WFstate s = true) :
    WFstate (runOps ops s) = true := by
  induction ops generalizing s with
  | nil => exact hW
  | cons op rest ih => exact ih (applyOp s op) (WFstate_applyOp s op hW)

/-- Operations that respect the known-hash contract: a caller-supplied hash
is the hashing collaborator value of the key. -/
def hashCorrect : Op → Prop
  | .setKH _ k _ h => h = hashFn k
  | _ => True

theorem Good_applyOp (s : DState) (op : Op) (hG : Good s = true)
    (hc : hashCorrect op) : Good (applyOp s op) = true := by
  cases op with
  | set a k v => exact Good_dSetKH a s k v hG
  | setKH a k v h =>
      have hh : h = hashFn k := hc
      rw [show applyOp s (.setKH a k v h) = (dSetKH a s k v h).2 from rfl, hh]
      exact Good_dSetKH a s k v hG
  | setDef a k dflt => exact Good_dSetDefault a s k dflt hG
  | del k => exact Good_dDeleteKH s k (hashFn k) hG
  | delKH k h => exact Good_dDeleteKH s k h hG
  | popO k dflt => exact Good_dPopKH s k (hashFn k) dflt hG
  | getO k => exact hG
  | containsO k => exact hG
  | mergeO a other pol => exact Good_mergeLoop a pol (liveEntries other) s 0 hG
  | versionO => exact Good_getVersion s hG

theorem Good_runOps (ops : List Op) (s : DState) (hG : Good s = true)
    (hc : ∀ op ∈ ops, hashCorrect op) : Good (runOps ops s) = true := by
  induction ops generalizing s with
  | nil => exact hG
  | cons op rest ih =>
      exact ih (applyOp s op)
        (Good_applyOp s op hG (hc op (List.mem_cons_self _ _)))
        fun o ho => hc o (List.mem_cons_of_mem _ ho)

theorem contains_combined_find {s : DState} {k : Nat}
    (hv : s.d.ma_values = none)
    (hc : s.d.containsK k = true) :
    ∃ v, findC k (hashFn k) s.d.ma_keys.slots = some (some v)
      ∧ s.d.get k = some v := by
  unfold PyDictObject.containsK at hc
  unfold PyDictObject.get at hc ⊢
  rw [getKH_combined hv] at hc ⊢
  rcases hf : findC k (hashFn k) s.d.ma_keys.slots with _ | cv
  · rw [hf] at hc
    simp at hc
  · rw [hf] at hc
    cases cv with
    | none => simp at hc
    | some v => exact ⟨v, rfl, by simp⟩

theorem contains_split_find {s : DState} {vals : List (Option Nat)} {k : Nat}
    (hv : s.d.ma_values = some vals)
    (hc : s.d.containsK k = true) :
    ∃ v, findS k (hashFn k) s.d.ma_keys.slots vals = some (some v)
      ∧ s.d.get k = some v := by
  unfold PyDictObject.containsK at hc
  unfold PyDictObject.get at hc ⊢
  rw [getKH_split hv] at hc ⊢
  rcases hf : findS k (hashFn k) s.d.ma_keys.slots vals with _ | cv
  · rw [hf] at hc
    simp at hc
  · rw [hf] at hc
    cases cv with
    | none => simp at hc
    | some v => exact ⟨v, rfl, by simp⟩

theorem not_contains_combined_find {s : DState} {k : Nat}
    (hv : s.d.ma_values = none)
    (hcomb : s.d.ma_keys.slots.all slotComb = true)
    (hc : s.d.containsK k = false) :
    findC k (hashFn k) s.d.ma_keys.slots = none := by
  unfold PyDictObject.containsK PyDictObject.get at hc
  rw [getKH_combined hv] at hc
  rcases hf : findC k (hashFn k) s.d.ma_keys.slots with _ | cv
  · rfl
  · rw [hf] at hc
    have := findC_isSome_of_slotComb hcomb hf
    rcases Option.isSome_iff_exists.mp this with ⟨v, rfl⟩
    simp at hc

theorem not_contains_split_find {s : DState} {vals : List (Option Nat)}
    {k : Nat} (hv : s.d.ma_values = some vals)
    (hc : s.d.containsK k = false) :
    findS k (hashFn k) s.d.ma_keys.slots vals = none
      ∨ findS k (hashFn k) s.d.ma_keys.slots vals = some none := by
  unfold PyDictObject.containsK PyDictObject.get at hc
  rw [getKH_split hv] at hc
  rcases hf : findS k (hashFn k) s.d.ma_keys.slots vals with _ | cv
  · exact Or.inl rfl
  · cases cv with
    | none => exact Or.inr rfl
    | some v =>
        rw [hf] at hc
        simp at hc

theorem deleteC_of_findC {k h v : Nat} {slots : List KSlot}
    (hf : findC k h slots = some (some v)) :
    ∃ slots', deleteC k h slots = some (v, slots') := by
  have hfst := deleteC_fst k h slots
  rw [hf] at hfst
  have hj : (some (some v) : Option (Option Nat)).join = some v := rfl
  rw [hj] at hfst
  rcases hd : deleteC k h slots with _ | ⟨w, slots'⟩
  · rw [hd] at hfst
    simp at hfst
  · rw [hd] at hfst
    simp only [Option.map_some'] at hfst
    cases hfst
    exact ⟨slots', rfl⟩

theorem updateS_of_findS {k h : Nat} {ov : Option Nat} (nv : Option Nat)
    {slots : List KSlot} {vals : List (Option Nat)}
    (hf : findS k h slots vals = some ov) :
    ∃ vals', updateS k h nv slots vals = some (ov, vals') := by
  have hfst := updateS_fst k h nv slots vals
  rw [hf] at hfst
  rcases hu : updateS k h nv slots vals with _ | ⟨ov2, vals2⟩
  · rw [hu] at hfst
    simp at hfst
  · rw [hu] at hfst
    simp only [Option.map_some'] at hfst
    cases hfst
    exact ⟨vals2, rfl⟩

theorem overwriteC_of_findC_none {k h : Nat} (v : Nat) {slots : List KSlot}
    (hf : findC k h slots = none) : overwriteC k h v slots = none := by
  have := overwriteC_isSome k h v slots
  rw [hf] at this
  rcases ho : overwriteC k h v slots with _ | r
  · rfl
  · rw [ho] at this
    simp at this

theorem dSet_true_ok (s : DState) (k v : Nat) :
    (dSet true s k v).1 = Except.ok () := by
  unfold dSet
  rcases hv : s.d.ma_values with _ | vals
  · rcases ho : overwriteC k (hashFn k) v s.d.ma_keys.slots with _ | slots'
    · simp only [dSetKH, hv, ho]
      rw [insertNewCombined_true]
    · simp only [dSetKH, hv, ho]
  · rcases hu : updateS k (hashFn k) (some v) s.d.ma_keys.slots vals
      with _ | ⟨old, vals'⟩
    · simp only [dSetKH, hv, hu]
      rw [insertPrivatized_true]
    · simp only [dSetKH, hv, hu]
      cases old <;> simp

theorem dSetKH_true_tag (s : DState) (k v h : Nat) :
    (dSetKH true s k v h).2.d.ma_version_tag = s.verOracle := by
  rcases hv : s.d.ma_values with _ | vals
  · rcases ho : overwriteC k h v s.d.ma_keys.slots with _ | slots'
    · simp only [dSetKH, hv, ho]
      rw [insertNewCombined_true]
      rfl
    · simp only [dSetKH, hv, ho]
      rfl
  · rcases hu : updateS k h (some v) s.d.ma_keys.slots vals
      with _ | ⟨old, vals'⟩
    · simp only [dSetKH, hv, hu]
      rw [insertPrivatized_true]
      rfl
    · simp only [dSetKH, hv, hu]
      cases old <;> rfl

theorem dSetKH_true_verOracle (s : DState) (k v h : Nat) :
    (dSetKH true s k v h).2.verOracle = s.verOracle + 1 := by
  rcases hv : s.d.ma_values with _ | vals
  · rcases ho : overwriteC k h v s.d.ma_keys.slots with _ | slots'
    · simp only [dSetKH, hv, ho]
      rw [insertNewCombined_true]
      rfl
    · simp only [dSetKH, hv, ho]
      rfl
  · rcases hu : updateS k h (some v) s.d.ma_keys.slots vals
      with _ | ⟨old, vals'⟩
    · simp only [dSetKH, hv, hu]
      rw [insertPrivatized_true]
      rfl
    · simp only [dSetKH, hv, hu]
      cases old <;> rfl

theorem dDelete_present_state {s : DState} {k : Nat} {v : Nat}
    (hG : Good s = true) (hget : s.d.get k = some v) :
    (dDelete s k).1 = Except.ok ()
      ∧ (dDelete s k).2.d.ma_version_tag = s.verOracle
      ∧ (dDelete s k).2.d.ma_keys.generation = s.d.ma_keys.generation + 1
      ∧ (dDelete s k).2.d.get k = none := by
  rw [Good_iff] at hG
  obtain ⟨hW, hhash, hnd⟩ := hG
  have hc : s.d.containsK k = true := by
    unfold PyDictObject.containsK
    rw [hget]
    rfl
  rcases hv : s.d.ma_values with _ | vals
  · obtain ⟨w, hf, hgw⟩ := contains_combined_find hv hc
    obtain ⟨slots', hd⟩ := deleteC_of_findC hf
    unfold dDelete
    refine ⟨?_, ?_, ?_, ?_⟩
    · simp [dDeleteKH, hv, hd]
    · simp [dDeleteKH, hv, hd, freshTag]
    · simp [dDeleteKH, hv, hd, freshTag]
    · simp only [dDeleteKH, hv, hd]
      unfold PyDictObject.get
      rw [getKH_combined (by simp [freshTag, hv])]
      show (findC k (hashFn k) slots').join = none
      rw [deleteC_findC_self hd hnd]
      rfl
  · obtain ⟨w, hf, hgw⟩ := contains_split_find hv hc
    obtain ⟨vals', hu⟩ := updateS_of_findS none hf
    unfold dDelete
    refine ⟨?_, ?_, ?_, ?_⟩
    · simp [dDeleteKH, hv, hu]
    · simp [dDeleteKH, hv, hu, freshTag]
    · simp [dDeleteKH, hv, hu, freshTag]
    · simp only [dDeleteKH, hv, hu]
      unfold PyDictObject.get
      rw [getKH_split (w := vals') (by simp [freshTag])]
      show (findS k (hashFn k) s.d.ma_keys.slots vals').join = none
      rw [updateS_findS_self hu]
      rfl

theorem dDelete_absent_state {s : DState} {k : Nat}
    (hG : Good s = true) (hc : s.d.containsK k = false) :
    dDelete s k = (Except.error .keyMissing, s) := by
  rw [Good_iff] at hG
  obtain ⟨hW, hhash, hnd⟩ := hG
  rw [WFstate_iff] at hW
  obtain ⟨hWd, -, -, -⟩ := hW
  rcases hv : s.d.ma_values with _ | vals
  · rw [WFdict_combined_iff hv] at hWd
    have hf := not_contains_combined_find hv hWd.2.1 hc
    have hd : deleteC k (hashFn k) s.d.ma_keys.slots = none := by
      have := deleteC_fst k (hashFn k) s.d.ma_keys.slots
      rw [hf] at this
      rcases hd0 : deleteC k (hashFn k) s.d.ma_keys.slots with _ | p
      · rfl
      · rw [hd0] at this
        simp at this
    unfold dDelete
    simp only [dDeleteKH, hv, hd]
  · rcases not_contains_split_find hv hc with hf | hf
    · have hu : updateS k (hashFn k) none s.d.ma_keys.slots vals = none := by
        have := updateS_fst k (hashFn k) none s.d.ma_keys.slots vals
        rw [hf] at this
        rcases hu0 : updateS k (hashFn k) none s.d.ma_keys.slots vals with _ | p
        · rfl
        · rw [hu0] at this
          simp at this
      unfold dDelete
      simp only [dDeleteKH, hv, hu]
    · obtain ⟨vals', hu⟩ := updateS_of_findS none hf
      unfold dDelete
      simp only [dDeleteKH, hv, hu]

theorem dPop_present_state {s : DState} {k : Nat} {v : Nat}
    (hG : Good s = true) (hget : s.d.get k = some v) (dflt : Option Nat) :
    (dPop s k dflt).1 = Except.ok v
      ∧ (dPop s k dflt).2.d.ma_version_tag = s.verOracle
      ∧ (dPop s k dflt).2.d.get k = none
      ∧ (dPop s k dflt).2.d.ma_used = s.d.ma_used - 1 := by
  rw [Good_iff] at hG
  obtain ⟨hW, hhash, hnd⟩ := hG
  have hc : s.d.containsK k = true := by
    unfold PyDictObject.containsK
    rw [hget]
    rfl
  rcases hv : s.d.ma_values with _ | vals
  · obtain ⟨w, hf, hgw⟩ := contains_combined_find hv hc
    have hw : w = v := by
      rw [hgw] at hget
      cases hget
      rfl
    subst hw
    obtain ⟨slots', hd⟩ := deleteC_of_findC hf
    unfold dPop
    refine ⟨?_, ?_, ?_, ?_⟩
    · simp [dPopKH, hv, hd]
    · simp [dPopKH, hv, hd, freshTag]
    · simp only [dPopKH, hv, hd]
      unfold PyDictObject.get
      rw [getKH_combined (by simp [freshTag, hv])]
      show (findC k (hashFn k) slots').join = none
      rw [deleteC_findC_self hd hnd]
      rfl
    · simp [dPopKH, hv, hd, freshTag]
  · obtain ⟨w, hf, hgw⟩ := contains_split_find hv hc
    have hw : w = v := by
      rw [hgw] at hget
      cases hget
      rfl
    subst hw
    obtain ⟨vals', hu⟩ := updateS_of_findS none hf
    unfold dPop
    refine ⟨?_, ?_, ?_, ?_⟩
    · simp [dPopKH, hv, hu]
    · simp [dPopKH, hv, hu, freshTag]
    · simp only [dPopKH, hv, hu]
      unfold PyDictObject.get
      rw [getKH_split (w := vals') (by simp [freshTag])]
      show (findS k (hashFn k) s.d.ma_keys.slots vals').join = none
      rw [updateS_findS_self hu]
      rfl
    · simp [dPopKH, hv, hu, freshTag]

theorem dPop_absent_state {s : DState} {k : Nat}
    (hG : Good s = true) (hc : s.d.containsK k = false) :
    dPop s k none = (Except.error .keyMissing, s)
      ∧ ∀ d0, dPop s k (some d0) = (Except.ok d0, s) := by
  rw [Good_iff] at hG
  obtain ⟨hW, hhash, hnd⟩ := hG
  rw [WFstate_iff] at hW
  obtain ⟨hWd, -, -, -⟩ := hW
  rcases hv : s.d.ma_values with _ | vals
  · rw [WFdict_combined_iff hv] at hWd
    have hf := not_contains_combined_find hv hWd.2.1 hc
    have hd : deleteC k (hashFn k) s.d.ma_keys.slots = none := by
      have hfst := deleteC_fst k (hashFn k) s.d.ma_keys.slots
      rw [hf] at hfst
      rcases hd0 : deleteC k (hashFn k) s.d.ma_keys.slots with _ | p
      · rfl
      · rw [hd0] at hfst
        simp at hfst
    constructor
    · unfold dPop
      simp only [dPopKH, hv, hd]
    · intro d0
      unfold dPop
      simp only [dPopKH, hv, hd]
  · have hupd : updateS k (hashFn k) none s.d.ma_keys.slots vals = none
        ∨ ∃ vals', updateS k (hashFn k) none s.d.ma_keys.slots vals
            = some (none, vals') := by
      rcases not_contains_split_find hv hc with hf | hf
      · left
        have hfst := updateS_fst k (hashFn k) none s.d.ma_keys.slots vals
        rw [hf] at hfst
        rcases hu0 : updateS k (hashFn k) none s.d.ma_keys.slots vals with _ | p
        · rfl
        · rw [hu0] at hfst
          simp at hfst
      · right
        exact updateS_of_findS none hf
    rcases hupd with hu | ⟨vals', hu⟩
    · constructor
      · unfold dPop
        simp only [dPopKH, hv, hu]
      · intro d0
        unfold dPop
        simp only [dPopKH, hv, hu]
    · constructor
      · unfold dPop
        simp only [dPopKH, hv, hu]
      · intro d0
        unfold dPop
        simp only [dPopKH, hv, hu]

theorem dDeleteKH_absent_state {s : DState} {k : Nat}
    (hG : Good s = true) (hc : s.d.containsK k = false) :
    dDeleteKH s k (hashFn k) = (Except.error .keyMissing, s) :=
  dDelete_absent_state hG hc

theorem dSetDefault_present {s : DState} {k v : Nat} (a : Bool) (dflt : Nat)
    (hget : s.d.get k = some v) :
    dSetDefault a s k dflt = (Except.ok v, s) := by
  unfold PyDictObject.get at hget
  rcases hv : s.d.ma_values with _ | vals
  · rw [getKH_combined hv] at hget
    have hf : findC k (hashFn k) s.d.ma_keys.slots = some (some v) := by
      rcases hf0 : findC k (hashFn k) s.d.ma_keys.slots with _ | cv
      · rw [hf0] at hget
        simp at hget
      · rw [hf0] at hget
        cases cv with
        | none => simp at hget
        | some w =>
            have : w = v := by
              cases hget
              rfl
            rw [this]
    simp only [dSetDefault, dSetDefaultCounted, tickHash, tickFindC, hv, hf]
  · rw [getKH_split hv] at hget
    have hf : findS k (hashFn k) s.d.ma_keys.slots vals = some (some v) := by
      rcases hf0 : findS k (hashFn k) s.d.ma_keys.slots vals with _ | cv
      · rw [hf0] at hget
        simp at hget
      · rw [hf0] at hget
        cases cv with
        | none => simp at hget
        | some w =>
            have : w = v := by
              cases hget
              rfl
            rw [this]
    obtain ⟨vals', hu⟩ := updateS_of_findS (some dflt) hf
    simp only [dSetDefault, dSetDefaultCounted, tickHash, tickUpdateS, hv, hu]

theorem dSetDefault_absent {s : DState} {k : Nat} (dflt : Nat)
    (hG : Good s = true) (hc : s.d.containsK k = false) :
    (dSetDefault true s k dflt).1 = Except.ok dflt
      ∧ (dSetDefault true s k dflt).2.d.get k = some dflt
      ∧ (dSetDefault true s k dflt).2.d.ma_version_tag = s.verOracle := by
  rw [Good_iff] at hG
  obtain ⟨hW, hhash, hnd⟩ := hG
  rw [WFstate_iff] at hW
  obtain ⟨hWd, -, -, -⟩ := hW
  rcases hv : s.d.ma_values with _ | vals
  · rw [WFdict_combined_iff hv] at hWd
    have hf := not_contains_combined_find hv hWd.2.1 hc
    refine ⟨?_, ?_, ?_⟩
    · simp only [dSetDefault, dSetDefaultCounted, tickHash, tickFindC, hv, hf]
      rw [insertNewCombined_true]
      rfl
    · simp only [dSetDefault, dSetDefaultCounted, tickHash, tickFindC, hv, hf]
      rw [insertNewCombined_true]
      unfold PyDictObject.get
      rw [getKH_combined (by simp [freshTag, hv])]
      simp only [freshTag]
      rw [findC_append_none _ (by rw [insBase_findC]; exact hf)]
      rw [findC_singleton_match]
      rfl
    · simp only [dSetDefault, dSetDefaultCounted, tickHash, tickFindC, hv, hf]
      rw [insertNewCombined_true]
      rfl
  · rcases not_contains_split_find hv hc with hf | hf
    · have hu : updateS k (hashFn k) (some dflt) s.d.ma_keys.slots vals
          = none := by
        have hfst := updateS_fst k (hashFn k) (some dflt) s.d.ma_keys.slots vals
        rw [hf] at hfst
        rcases hu0 : updateS k (hashFn k) (some dflt) s.d.ma_keys.slots vals
          with _ | p
        · rfl
        · rw [hu0] at hfst
          simp at hfst
      refine ⟨?_, ?_, ?_⟩
      · simp only [dSetDefault, dSetDefaultCounted, tickHash, tickUpdateS, hv, hu]
        rw [insertPrivatized_true]
        rfl
      · simp only [dSetDefault, dSetDefaultCounted, tickHash, tickUpdateS, hv, hu]
        rw [insertPrivatized_true]
        unfold PyDictObject.get
        rw [getKH_combined (by simp [freshTag, privatizeD_of_split hv])]
        simp only [freshTag, privatizeD_of_split hv]
        rw [findC_append_none _ (privSlots_findC_none hu)]
        rw [findC_singleton_match]
        rfl
      · simp only [dSetDefault, dSetDefaultCounted, tickHash, tickUpdateS, hv, hu]
        rw [insertPrivatized_true]
        rfl
    · obtain ⟨vals', hu⟩ := updateS_of_findS (some dflt) hf
      refine ⟨?_, ?_, ?_⟩
      · simp only [dSetDefault, dSetDefaultCounted, tickHash, tickUpdateS, hv, hu]
      · simp only [dSetDefault, dSetDefaultCounted, tickHash, tickUpdateS, hv, hu]
        unfold PyDictObject.get
        rw [getKH_split (w := vals') (by simp [freshTag])]
        simp only [freshTag]
        rw [updateS_findS_self hu]
        rfl
      · simp only [dSetDefault, dSetDefaultCounted, tickHash, tickUpdateS, hv, hu]
        rfl

theorem dSetDefault_counts (a : Bool) (s : DState) (k dflt : Nat)
    (c : Counters) :
    (dSetDefaultCounted a s k dflt c).2
      = ⟨c.hashCalls + 1, c.lookupPasses + 1⟩ := by
  rcases hv : s.d.ma_values with _ | vals
  · rcases hf : findC k (hashFn k) s.d.ma_keys.slots with _ | cv
    · simp only [dSetDefaultCounted, tickHash, tickFindC, hv, hf]
    · cases cv with
      | some v => simp only [dSetDefaultCounted, tickHash, tickFindC, hv, hf]
      | none => simp only [dSetDefaultCounted, tickHash, tickFindC, hv, hf]
  · rcases hu : updateS k (hashFn k) (some dflt) s.d.ma_keys.slots vals
      with _ | ⟨old, vals'⟩
    · simp only [dSetDefaultCounted, tickHash, tickUpdateS, hv, hu]
    · cases old with
      | some v => simp only [dSetDefaultCounted, tickHash, tickUpdateS, hv, hu]
      | none => simp only [dSetDefaultCounted, tickHash, tickUpdateS, hv, hu]

theorem dSetDefault_true_ok {s : DState} (k dflt : Nat) (hG : Good s = true) :
    ∃ w, dSetDefault true s k dflt = (Except.ok w, (dSetDefault true s k dflt).2)
      ∧ (dSetDefault true s k dflt).2.d.get k = some w := by
  cases hc : s.d.containsK k with
  | true =>
      have hex : ∃ v, s.d.get k = some v := by
        unfold PyDictObject.containsK at hc
        exact Option.isSome_iff_exists.mp hc
      obtain ⟨v, hget⟩ := hex
      refine ⟨v, ?_, ?_⟩
      · rw [dSetDefault_present true dflt hget]
      · rw [dSetDefault_present true dflt hget]
        exact hget
  | false =>
      obtain ⟨h1, h2, -⟩ := dSetDefault_absent dflt hG hc
      refine ⟨dflt, ?_, h2⟩
      rcases hsd : dSetDefault true s k dflt with ⟨r, s'⟩
      rw [hsd] at h1
      simp only at h1
      rw [h1]

theorem mergeLoop_count_mono (a : Bool) (pol : MergePolicy)
    (entries : List (Nat × Nat)) :
    ∀ s n, n ≤ (mergeLoop a pol entries s n).2.2 := by
  induction entries with
  | nil => exact fun s n => Nat.le_refl n
  | cons p rest ih =>
      intro s n
      obtain ⟨k, v⟩ := p
      show n ≤ (mergeLoop a pol ((k, v) :: rest) s n).2.2
      simp only [mergeLoop]
      split
      · cases pol with
        | firstWins => exact ih s n
        | lastWins =>
            rcases hset : dSet a s k v with ⟨r, s'⟩
            cases r with
            | ok u => exact Nat.le_trans (Nat.le_succ n) (ih s' (n + 1))
            | error e => exact Nat.le_refl n
        | raiseOnConflict => exact Nat.le_refl n
      · rcases hset : dSet a s k v with ⟨r, s'⟩
        cases r with
        | ok u => exact Nat.le_trans (Nat.le_succ n) (ih s' (n + 1))
        | error e => exact Nat.le_refl n

theorem mergeLoop_applied_tag (pol : MergePolicy)
    (entries : List (Nat × Nat)) :
    ∀ s n, n < (mergeLoop true pol entries s n).2.2 →
      s.verOracle ≤ (mergeLoop true pol entries s n).2.1.d.ma_version_tag := by
  induction entries with
  | nil =>
      intro s n hn
      simp only [mergeLoop] at hn
      omega
  | cons p rest ih =>
      intro s n
      obtain ⟨k, v⟩ := p
      rcases hset : dSet true s k v with ⟨r, s'⟩
      have hr : r = Except.ok () := by
        have := dSet_true_ok s k v
        rw [hset] at this
        exact this
      subst hr
      have happly :
          s.verOracle
            ≤ (mergeLoop true pol rest s' (n + 1)).2.1.d.ma_version_tag := by
        have htag : s'.d.ma_version_tag = s.verOracle := by
          have := dSetKH_true_tag s k v (hashFn k)
          rw [show dSetKH true s k v (hashFn k) = dSet true s k v from rfl,
            hset] at this
          exact this
        have hvo : s'.verOracle = s.verOracle + 1 := by
          have := dSetKH_true_verOracle s k v (hashFn k)
          rw [show dSetKH true s k v (hashFn k) = dSet true s k v from rfl,
            hset] at this
          exact this
        have hstep := stepR_mergeLoop true pol rest s' (n + 1)
        rcases hstep.2.2.1 with heq | hge
        · rw [heq, htag]
        · rw [hvo] at hge
          omega
      intro hn
      cases hcont : s.d.containsK k with
      | true =>
          cases pol with
          | firstWins =>
              simp only [mergeLoop, hcont, if_true] at hn ⊢
              exact ih s n hn
          | lastWins =>
              simp only [mergeLoop, hcont, if_true, hset] at hn ⊢
              exact happly
          | raiseOnConflict =>
              simp only [mergeLoop, hcont, if_true] at hn
              omega
      | false =>
          simp only [mergeLoop, hcont, Bool.false_eq_true, if_false, hset]
            at hn ⊢
          exact happly

theorem mergeLoop_conflict (k v : Nat) (post : List (Nat × Nat)) :
    ∀ (pre : List (Nat × Nat)) (s : DState) (n : Nat),
      Good s = true →
      (∀ p ∈ pre, s.d.containsK p.1 = false) →
      (pre.map Prod.fst).Nodup →
      s.d.containsK k = true →
      (mergeLoop true .raiseOnConflict (pre ++ (k, v) :: post) s n).1
          = Except.error (.keyConflict k)
        ∧ (mergeLoop true .raiseOnConflict (pre ++ (k, v) :: post) s n).2.2
            = n + pre.length
        ∧ (∀ p ∈ pre,
            (mergeLoop true .raiseOnConflict
              (pre ++ (k, v) :: post) s n).2.1.d.get p.1 = some p.2)
        ∧ ∀ k2, k2 ∉ pre.map Prod.fst →
            (mergeLoop true .raiseOnConflict
              (pre ++ (k, v) :: post) s n).2.1.d.get k2 = s.d.get k2 := by
  intro pre
  induction pre with
  | nil =>
      intro s n hG hpre hnd hck
      refine ⟨?_, ?_, ?_, ?_⟩
      · simp [mergeLoop, hck]
      · simp [mergeLoop, hck]
      · simp
      · intro k2 hk2
        simp [mergeLoop, hck]
  | cons p1 pre' ih =>
      intro s n hG hpre hnd hck
      obtain ⟨k1, v1⟩ := p1
      have hc1 : s.d.containsK k1 = false :=
        hpre (k1, v1) (List.mem_cons_self _ _)
      have hk1k : k1 ≠ k := by
        intro heq
        rw [heq, hck] at hc1
        exact Bool.noConfusion hc1
      rcases hset : dSet true s k1 v1 with ⟨r, s'⟩
      have hr : r = Except.ok () := by
        have := dSet_true_ok s k1 v1
        rw [hset] at this
        exact this
      subst hr
      simp only [List.map_cons, List.nodup_cons] at hnd
      have hGnd : nodupB (entryKeys s.d.ma_keys.slots) = true :=
        ((Good_iff s).mp hG).2.2
      have hG' : Good s' = true := by
        have := Good_dSetKH true s k1 v1 hG
        rw [show dSetKH true s k1 v1 (hashFn k1) = dSet true s k1 v1 from rfl,
          hset] at this
        exact this
      have hget1 : s'.d.get k1 = some v1 := by
        have := dSet_get_self s k1 v1
        rw [hset] at this
        exact this
      have hother : ∀ k2, k2 ≠ k1 → s'.d.get k2 = s.d.get k2 := by
        intro k2 hne
        have := dSetKH_get_other (s := s) true v1 k2 hGnd (fun h => hne h.symm)
        rw [show dSetKH true s k1 v1 (hashFn k1) = dSet true s k1 v1 from rfl,
          hset] at this
        exact this
      have hpre' : ∀ p ∈ pre', s'.d.containsK p.1 = false := by
        intro p hp
        have hne : p.1 ≠ k1 := by
          intro heq
          exact hnd.1 (heq ▸ List.mem_map_of_mem Prod.fst hp)
        unfold PyDictObject.containsK
        rw [hother p.1 hne]
        exact hpre p (List.mem_cons_of_mem _ hp)
      have hck' : s'.d.containsK k = true := by
        unfold PyDictObject.containsK
        rw [hother k (fun heq => hk1k heq.symm)]
        exact hck
      obtain ⟨ih1, ih2, ih3, ih4⟩ := ih s' (n + 1) hG' hpre' hnd.2 hck'
      refine ⟨?_, ?_, ?_, ?_⟩
      · simp only [List.cons_append, List.append_eq, mergeLoop, hc1,
          Bool.false_eq_true, if_false, hset]
        exact ih1
      · simp only [List.cons_append, List.append_eq, mergeLoop, hc1,
          Bool.false_eq_true, if_false, hset]
        rw [ih2]
        simp only [List.length_cons]
        omega
      · intro p hp
        simp only [List.cons_append, List.append_eq, mergeLoop, hc1,
          Bool.false_eq_true, if_false, hset]
        rcases List.mem_cons.mp hp with heq | hp'
        · cases heq
          rw [ih4 k1 (fun hm => hnd.1 hm)]
          exact hget1
        · exact ih3 p hp'
      · intro k2 hk2
        simp only [List.cons_append, List.append_eq, mergeLoop, hc1,
          Bool.false_eq_true, if_false, hset]
        have hk2k1 : k2 ≠ k1 := by
          intro heq
          exact hk2 (by rw [heq]; exact List.mem_cons_self _ _)
        have hk2pre : k2 ∉ pre'.map Prod.fst := by
          intro hm
          exact hk2 (List.mem_cons_of_mem _ hm)
        rw [ih4 k2 hk2pre]
        exact hother k2 hk2k1

theorem runOps_append (a b : List Op) (s : DState) :
    runOps (a ++ b) s = runOps b (runOps a s) := by
  unfold runOps
  exact List.foldl_append _ _ a b

theorem stateAt_stepR (ops : List Op) (s0 : DState) {i j : Nat} (hij : i ≤ j) :
    StepR (stateAt ops s0 i) (stateAt ops s0 j) := by
  have h2 : (ops.take j).take i = ops.take i := by
    rw [List.take_take]
    congr 1
    omega
  have h1 : ops.take i ++ (ops.take j).drop i = ops.take j := by
    rw [← h2]
    exact List.take_append_drop i (ops.take j)
  unfold stateAt
  rw [← h1, runOps_append]
  exact stepR_runOps _ _

theorem stateAt_succ (ops : List Op) (s0 : DState) {j : Nat}
    (hj : j < ops.length) :
    stateAt ops s0 (j + 1) = applyOp (stateAt ops s0 j) (ops.get ⟨j, hj⟩) := by
  unfold stateAt
  rw [List.take_succ]
  rw [(List.getElem?_eq_some_getElem_iff ops j hj).mpr trivial]
  rw [runOps_append]
  rfl

theorem stateAt_stable (ops : List Op) (s0 : DState) {j : Nat}
    (hj : ops.length ≤ j) : stateAt ops s0 j = runOps ops s0 := by
  unfold stateAt
  rw [List.take_of_length_le hj]

theorem tag_fresh (ops : List Op) (s0 : DState) (hW : WFstate s0 = true)
    {i j : Nat} (hij : i ≤ j)
    (hchg : tagAt ops s0 (j + 1) ≠ tagAt ops s0 j) :
    tagAt ops s0 (j + 1) ≠ tagAt ops s0 i := by
  by_cases hj : j < ops.length
  · have hstep := stateAt_succ ops s0 hj
    have hsr : StepR (stateAt ops s0 j) (stateAt ops s0 (j + 1)) := by
      rw [hstep]
      exact stepR_applyOp _ _
    have hfresh : (stateAt ops s0 j).verOracle ≤ tagAt ops s0 (j + 1) := by
      rcases hsr.2.2.1 with heq | hge
      · exact absurd heq hchg
      · exact hge
    have hWi : WFstate (stateAt ops s0 i) = true := WFstate_runOps _ s0 hW
    rw [WFstate_iff] at hWi
    have htagi : tagAt ops s0 i < (stateAt ops s0 i).verOracle := hWi.2.1
    have hmono : (stateAt ops s0 i).verOracle ≤ (stateAt ops s0 j).verOracle :=
      (stateAt_stepR ops s0 hij).1
    unfold tagAt at hfresh hchg ⊢
    omega
  · have h1 : ops.length ≤ j := by omega
    have h2 : ops.length ≤ j + 1 := by omega
    unfold tagAt at hchg
    rw [stateAt_stable ops s0 h1, stateAt_stable ops s0 h2] at hchg
    exact absurd rfl hchg

theorem viewCombined_length (slots : List KSlot) :
    (viewCombined slots).length = slots.length := by
  induction slots with
  | nil => rfl
  | cons s rest ih =>
      cases s with
      | entry k h cv => cases cv <;> simp [viewCombined, ih]
      | tomb => simp [viewCombined, ih]

theorem viewSplit_length_le (slots : List KSlot) (vals : List (Option Nat)) :
    (viewSplit slots vals).length ≤ slots.length := by
  induction slots generalizing vals with
  | nil => cases vals <;> simp [viewSplit]
  | cons s rest ih =>
      cases vals with
      | nil =>
          cases s <;> simp [viewSplit]
      | cons ov vrest =>
          cases s with
          | entry k h cv =>
              simp only [viewSplit, List.length_cons]
              exact Nat.succ_le_succ (ih vrest)
          | tomb =>
              simp only [viewSplit, List.length_cons]
              exact Nat.succ_le_succ (ih vrest)

theorem liveCount_le_filled (d : PyDictObject) :
    liveCount d ≤ d.ma_keys.filledSlots := by
  unfold liveCount liveTriples KeysTable.filledSlots
  rcases hv : d.ma_values with _ | vals
  · simp only [slotsView, hv]
    calc (List.filterMap id (viewCombined d.ma_keys.slots)).length
        ≤ (viewCombined d.ma_keys.slots).length := List.length_filterMap_le _ _
      _ = d.ma_keys.slots.length := viewCombined_length _
  · simp only [slotsView, hv]
    calc (List.filterMap id (viewSplit d.ma_keys.slots vals)).length
        ≤ (viewSplit d.ma_keys.slots vals).length := List.length_filterMap_le _ _
      _ ≤ d.ma_keys.slots.length := viewSplit_length_le _ _

theorem firstLive_none {l : List (Option (Nat × Nat × Nat))}
    (hf : firstLive l = none) : l.filterMap id = [] := by
  induction l with
  | nil => rfl
  | cons x rest ih =>
      cases x with
      | some t => simp [firstLive] at hf
      | none =>
          simp only [firstLive] at hf
          rcases hf0 : firstLive rest with _ | p

          · simp only [List.filterMap_cons, id_eq]
            exact ih hf0
          · rw [hf0] at hf
            simp at hf

theorem firstLive_some {l : List (Option (Nat × Nat × Nat))}
    {t : Nat × Nat × Nat} {j : Nat}
    (hf : firstLive l = some (t, j)) :
    l.filterMap id = t :: (l.drop (j + 1)).filterMap id := by
  induction l generalizing j with
  | nil => simp [firstLive] at hf
  | cons x rest ih =>
      cases x with
      | some t' =>
          simp only [firstLive] at hf
          cases hf
          simp [List.filterMap_cons]
      | none =>
          simp only [firstLive] at hf
          rcases hf0 : firstLive rest with _ | ⟨t', j'⟩
          · rw [hf0] at hf
            simp at hf
          · rw [hf0] at hf
            simp only [Option.map_some'] at hf
            cases hf
            simp only [List.filterMap_cons, id_eq, List.drop_succ_cons]
            exact ih hf0

theorem firstLive_some_lt {l : List (Option (Nat × Nat × Nat))}
    {t : Nat × Nat × Nat} {j : Nat}
    (hf : firstLive l = some (t, j)) : j < l.length := by
  induction l generalizing j with
  | nil => simp [firstLive] at hf
  | cons x rest ih =>
      cases x with
      | some t' =>
          simp only [firstLive] at hf
          cases hf
          simp
      | none =>
          simp only [firstLive] at hf
          rcases hf0 : firstLive rest with _ | ⟨t', j'⟩
          · rw [hf0] at hf
            simp at hf
          · rw [hf0] at hf
            simp only [Option.map_some'] at hf
            cases hf
            simp only [List.length_cons]
            exact Nat.succ_lt_succ (ih hf0)

theorem dNext_invalid (d : PyDictObject) (c : Cursor)
    (hgen : c.gen ≠ d.ma_keys.generation) :
    dNext d c = Except.error .invalidatedCursor := by
  unfold dNext
  rw [if_pos hgen]

theorem cursorListAux_spec (d : PyDictObject) :
    ∀ (fuel p : Nat), (slotsView d).length - p ≤ fuel →
      cursorListAux d fuel ⟨p, d.ma_keys.generation⟩
        = ((slotsView d).drop p).filterMap id := by
  intro fuel
  induction fuel with
  | zero =>
      intro p hp
      have : (slotsView d).length ≤ p := by omega
      rw [List.drop_eq_nil_of_le this]
      rfl
  | succ fuel ih =>
      intro p hp
      show (match dNext d ⟨p, d.ma_keys.generation⟩ with
        | Except.ok (some (t, c')) => t :: cursorListAux d fuel c'
        | _ => []) = _
      unfold dNext
      rw [if_neg (by simp)]
      rcases hf : firstLive ((slotsView d).drop p) with _ | ⟨t, j⟩
      · simp only
        rw [firstLive_none hf]
      · simp only
        rw [firstLive_some hf]
        have hdrop : ((slotsView d).drop p).drop (j + 1)
            = (slotsView d).drop (p + j + 1) := by
          rw [List.drop_drop]
          congr 1
        rw [hdrop]
        congr 1
        have hj : j < ((slotsView d).drop p).length := firstLive_some_lt hf
        have hlen2 : ((slotsView d).drop p).length
            = (slotsView d).length - p := List.length_drop _ _
        exact ih (p + j + 1) (by omega)

theorem cursorList_eq_liveTriples (d : PyDictObject) :
    cursorList d = liveTriples d := by
  unfold cursorList liveTriples freshCursor
  rw [cursorListAux_spec d (slotsView d).length 0 (by omega)]
  rfl

theorem dSet_absent_gen {s : DState} {k : Nat} (v : Nat)
    (hG : Good s = true) (hc : s.d.containsK k = false) :
    (dSet true s k v).2.d.ma_keys.generation
      = s.d.ma_keys.generation + 1 := by
  rw [Good_iff] at hG
  obtain ⟨hW, hhash, hnd⟩ := hG
  rw [WFstate_iff] at hW
  obtain ⟨hWd, -, -, -⟩ := hW
  rcases hv : s.d.ma_values with _ | vals
  · rw [WFdict_combined_iff hv] at hWd
    have hf := not_contains_combined_find hv hWd.2.1 hc
    have ho := overwriteC_of_findC_none v hf
    unfold dSet
    simp only [dSetKH, hv, ho]
    rw [insertNewCombined_true]
    rfl
  · rcases not_contains_split_find hv hc with hf | hf
    · have hu : updateS k (hashFn k) (some v) s.d.ma_keys.slots vals
          = none := by
        have hfst := updateS_fst k (hashFn k) (some v) s.d.ma_keys.slots vals
        rw [hf] at hfst
        rcases hu0 : updateS k (hashFn k) (some v) s.d.ma_keys.slots vals
          with _ | p
        · rfl
        · rw [hu0] at hfst
          simp at hfst
      unfold dSet
      simp only [dSetKH, hv, hu]
      rw [insertPrivatized_true]
      show (privatizeD s.d).ma_keys.generation = s.d.ma_keys.generation + 1
      rw [privatizeD_of_split hv]
    · obtain ⟨vals', hu⟩ := updateS_of_findS (some v) hf
      unfold dSet
      simp only [dSetKH, hv, hu]
      rfl

theorem shareSlot_slotSplit (slots : List KSlot) :
    (slots.filterMap shareSlot).all slotSplit = true := by
  induction slots with
  | nil => rfl
  | cons s rest ih =>
      cases s with
      | entry k h cv =>
          simp only [List.filterMap_cons, shareSlot, List.all_cons,
            Bool.and_eq_true]
          exact ⟨rfl, ih⟩
      | tomb =>
          simpa [List.filterMap_cons, shareSlot] using ih

theorem liveLenS_replicate_none (slots : List KSlot) :
    liveLenS slots (List.replicate slots.length none) = 0 := by
  induction slots with
  | nil => rfl
  | cons s rest ih =>
      cases s with
      | entry k h cv =>
          simp only [List.length_cons, List.replicate_succ, viewSplit,
            liveLenS, List.filterMap_cons, Option.map_none', id_eq]
          exact ih
      | tomb =>
          simp only [List.length_cons, List.replicate_succ, viewSplit,
            liveLenS, List.filterMap_cons, id_eq]
          exact ih

theorem WFstate_mkSplitShared (s : DState) (hW : WFstate s = true) :
    WFstate (mkSplitShared s) = true := by
  rw [WFstate_iff] at hW ⊢
  obtain ⟨hWd, htag, hko, hkv⟩ := hW
  refine ⟨?_, ?_, hko, ?_⟩
  · rw [WFdict_split_iff
      (w := List.replicate (s.d.ma_keys.slots.filterMap shareSlot).length none)
      (by simp [mkSplitShared, freshTag])]
    refine ⟨rfl, by simp [mkSplitShared, freshTag], ?_, ?_⟩
    · show (s.d.ma_keys.slots.filterMap shareSlot).all slotSplit = true
      exact shareSlot_slotSplit _
    · rw [liveCount_split
        (w := List.replicate
          (s.d.ma_keys.slots.filterMap shareSlot).length none)
        (by simp [mkSplitShared, freshTag])]
      show 0 = liveLenS (s.d.ma_keys.slots.filterMap shareSlot)
        (List.replicate (s.d.ma_keys.slots.filterMap shareSlot).length none)
      rw [liveLenS_replicate_none]
  · show s.verOracle < s.verOracle + 1
    omega
  · show (0:Nat) < s.keysOracle
    omega

theorem dSetKH_err {a : Bool} {s : DState} {k v h : Nat} {e : DictError}
    (hrun : (dSetKH a s k v h).1 = Except.error e) :
    e = .outOfMemory ∧ (dSetKH a s k v h).2 = s := by
  rcases hv : s.d.ma_values with _ | vals
  · rcases ho : overwriteC k h v s.d.ma_keys.slots with _ | slots'
    · rcases hins : insertNewCombined a s k h v with ⟨r, s'⟩
      simp only [dSetKH, hv, ho, hins] at hrun ⊢
      cases r with
      | ok u => simp at hrun
      | error e2 =>
          cases hrun
          exact insertNewCombined_err hins
    · simp only [dSetKH, hv, ho] at hrun
      simp at hrun
  · rcases hu : updateS k h (some v) s.d.ma_keys.slots vals
      with _ | ⟨old, vals'⟩
    · cases a with
      | true =>
          simp only [dSetKH, hv, hu] at hrun
          rw [insertPrivatized_true] at hrun
          simp at hrun
      | false =>
          simp only [dSetKH, hv, hu] at hrun ⊢
          rw [insertPrivatized_false] at hrun ⊢
          simp only at hrun
          cases hrun
          exact ⟨rfl, rfl⟩
    · simp only [dSetKH, hv, hu] at hrun
      cases old <;> simp at hrun

theorem dSetDefault_err {a : Bool} {s : DState} {k dflt : Nat} {e : DictError}
    (hrun : (dSetDefault a s k dflt).1 = Except.error e) :
    e = .outOfMemory ∧ (dSetDefault a s k dflt).2 = s := by
  rcases hv : s.d.ma_values with _ | vals
  · rcases hf : findC k (hashFn k) s.d.ma_keys.slots with _ | cv
    · rcases hins : insertNewCombined a s k (hashFn k) dflt with ⟨r, s'⟩
      simp only [dSetDefault, dSetDefaultCounted, tickHash, tickFindC, hv, hf,
        hins] at hrun ⊢
      cases r with
      | ok u => simp [Except.map] at hrun
      | error e2 =>
          cases hrun
          exact insertNewCombined_err hins
    · cases cv with
      | some w =>
          simp only [dSetDefault, dSetDefaultCounted, tickHash, tickFindC,
            hv, hf] at hrun
          simp at hrun
      | none =>
          rcases hins : insertNewCombined a s k (hashFn k) dflt with ⟨r, s'⟩
          simp only [dSetDefault, dSetDefaultCounted, tickHash, tickFindC,
            hv, hf, hins] at hrun ⊢
          cases r with
          | ok u => simp [Except.map] at hrun
          | error e2 =>
              cases hrun
              exact insertNewCombined_err hins
  · rcases hu : updateS k (hashFn k) (some dflt) s.d.ma_keys.slots vals
      with _ | ⟨old, vals'⟩
    · cases a with
      | true =>
          simp only [dSetDefault, dSetDefaultCounted, tickHash, tickUpdateS,
            hv, hu] at hrun
          rw [insertPrivatized_true] at hrun
          simp [Except.map] at hrun
      | false =>
          simp only [dSetDefault, dSetDefaultCounted, tickHash, tickUpdateS,
            hv, hu] at hrun ⊢
          rw [insertPrivatized_false] at hrun ⊢
          simp only [Except.map] at hrun
          cases hrun
          exact ⟨rfl, rfl⟩
    · cases old with
      | some w =>
          simp only [dSetDefault, dSetDefaultCounted, tickHash, tickUpdateS,
            hv, hu] at hrun
          simp at hrun
      | none =>
          simp only [dSetDefault, dSetDefaultCounted, tickHash, tickUpdateS,
            hv, hu] at hrun
          simp at hrun

theorem dDeleteKH_no_oom (s : DState) (k h : Nat) :
    (dDeleteKH s k h).1 ≠ Except.error .outOfMemory := by
  rcases hv : s.d.ma_values with _ | vals
  · rcases hd : deleteC k h s.d.ma_keys.slots with _ | ⟨w, slots'⟩
    · simp [dDeleteKH, hv, hd]
    · simp [dDeleteKH, hv, hd]
  · rcases hu : updateS k h none s.d.ma_keys.slots vals with _ | ⟨old, vals'⟩
    · simp [dDeleteKH, hv, hu]
    · cases old <;> simp [dDeleteKH, hv, hu]

theorem dPopKH_no_oom (s : DState) (k h : Nat) (dflt : Option Nat) :
    (dPopKH s k h dflt).1 ≠ Except.error .outOfMemory := by
  rcases hv : s.d.ma_values with _ | vals
  · rcases hd : deleteC k h s.d.ma_keys.slots with _ | ⟨w, slots'⟩
    · cases dflt <;> simp [dPopKH, hv, hd]
    · simp [dPopKH, hv, hd]
  · rcases hu : updateS k h none s.d.ma_keys.slots vals with _ | ⟨old, vals'⟩
    · cases dflt <;> simp [dPopKH, hv, hu]
    · cases old with
      | none => cases dflt <;> simp [dPopKH, hv, hu]
      | some w => simp [dPopKH, hv, hu]

theorem dSet_oom_grow {s : DState} {k : Nat} (v : Nat)
    (hG : Good s = true) (hv : s.d.ma_values = none)
    (hc : s.d.containsK k = false)
    (hg : needsGrow s.d.ma_keys = true) :
    dSet false s k v = (Except.error .outOfMemory, s) := by
  rw [Good_iff] at hG
  obtain ⟨hW, -, -⟩ := hG
  rw [WFstate_iff] at hW
  obtain ⟨hWd, -, -, -⟩ := hW
  rw [WFdict_combined_iff hv] at hWd
  have hf := not_contains_combined_find hv hWd.2.1 hc
  have ho := overwriteC_of_findC_none v hf
  unfold dSet
  simp only [dSetKH, hv, ho]
  exact insertNewCombined_false_grow s k (hashFn k) v hg

theorem dSet_oom_privatize {s : DState} {k : Nat} (v : Nat)
    {vals : List (Option Nat)} (hv : s.d.ma_values = some vals)
    (hu : updateS k (hashFn k) (some v) s.d.ma_keys.slots vals = none) :
    dSet false s k v = (Except.error .outOfMemory, s) := by
  unfold dSet
  simp only [dSetKH, hv, hu]
  exact insertPrivatized_false s k (hashFn k) v

theorem dSet_nogrow_ok {s : DState} {k : Nat} (v : Nat)
    (hG : Good s = true) (hv : s.d.ma_values = none)
    (hc : s.d.containsK k = false)
    (hg : needsGrow s.d.ma_keys = false) :
    (dSet false s k v).1 = Except.ok () := by
  rw [Good_iff] at hG
  obtain ⟨hW, -, -⟩ := hG
  rw [WFstate_iff] at hW
  obtain ⟨hWd, -, -, -⟩ := hW
  rw [WFdict_combined_iff hv] at hWd
  have hf := not_contains_combined_find hv hWd.2.1 hc
  have ho := overwriteC_of_findC_none v hf
  unfold dSet
  simp only [dSetKH, hv, ho]
  rw [insertNewCombined_false_nogrow s k (hashFn k) v hg]

theorem WFdict_used {d : PyDictObject} (h : WFdict d = true) :
    d.ma_used = liveCount d := by
  rcases hv : d.ma_values with _ | vals
  · exact ((WFdict_combined_iff hv).mp h).2.2
  · exact ((WFdict_split_iff hv).mp h).2.2.2

/-- An operation that inserts under a key other than `k`: a plain `set` or
a known-hash `set` carrying the hash of its own key. -/
def insertOfOther (k : Nat) : Op → Prop
  | .set _ k' _ => k' ≠ k
  | .setKH _ k' _ h' => k' ≠ k ∧ h' = hashFn k'
  | _ => False

theorem runOps_cons (op : Op) (rest : List Op) (s : DState) :
    runOps (op :: rest) s = runOps rest (applyOp s op) := rfl

theorem get_preserved_inserts (k v : Nat) :
    ∀ (ops : List Op) (s : DState), Good s = true →
      s.d.get k = some v → (∀ op ∈ ops, insertOfOther k op) →
      (runOps ops s).d.get k = some v := by
  intro ops
  induction ops with
  | nil =>
      intro s _ hget _
      exact hget
  | cons op rest ih =>
      intro s hG hget hops
      have hop := hops op (List.mem_cons_self _ _)
      have hGnd : nodupB (entryKeys s.d.ma_keys.slots) = true :=
        ((Good_iff s).mp hG).2.2
      rw [runOps_cons]
      cases op with
      | set a k' v' =>
          have hne : k' ≠ k := hop
          refine ih (applyOp s (Op.set a k' v'))
            (Good_applyOp s _ hG trivial) ?_
            fun o ho => hops o (List.mem_cons_of_mem _ ho)
          show (dSetKH a s k' v' (hashFn k')).2.d.get k = some v
          rw [dSetKH_get_other a v' k hGnd hne]
          exact hget
      | setKH a k' v' h' =>
          obtain ⟨hne, hh⟩ := hop
          rw [hh]
          refine ih (applyOp s (Op.setKH a k' v' (hashFn k')))
            (Good_applyOp s (Op.setKH a k' v' (hashFn k')) hG rfl) ?_
            fun o ho => ?_
          · show (dSetKH a s k' v' (hashFn k')).2.d.get k = some v
            rw [dSetKH_get_other a v' k hGnd hne]
            exact hget
          · have := hops o (List.mem_cons_of_mem _ ho)
            exact this
      | setDef a k' dflt => exact absurd hop (by simp [insertOfOther])
      | del k' => exact absurd hop (by simp [insertOfOther])
      | delKH k' h' => exact absurd hop (by simp [insertOfOther])
      | popO k' dflt => exact absurd hop (by simp [insertOfOther])
      | getO k' => exact absurd hop (by simp [insertOfOther])
      | containsO k' => exact absurd hop (by simp [insertOfOther])
      | mergeO a other pol => exact absurd hop (by simp [insertOfOther])
      | versionO => exact absurd hop (by simp [insertOfOther])

/-- Claim C1: after `set(k, v)` (or `set_known_hash` carrying the hash of the key), `get(k)` returns `v` and `contains(k)` is true, and this persists
across any further sequence of inserts of other keys. -/
theorem claim_C1 (s : DState) (k v : Nat) (ops : List Op)
    (hG : Good s = true) (hops : ∀ op ∈ ops, insertOfOther k op) :
    ((runOps ops (dSet true s k v).2).d.get k = some v
      ∧ (runOps ops (dSet true s k v).2).d.containsK k = true)
    ∧ ((runOps ops (dSetKH true s k v (hashFn k)).2).d.get k = some v
      ∧ (runOps ops (dSetKH true s k v (hashFn k)).2).d.containsK k = true) := by
  have hget : (dSet true s k v).2.d.get k = some v := dSet_get_self s k v
  have hG1 : Good (dSet true s k v).2 = true := Good_dSetKH true s k v hG
  have hmain : (runOps ops (dSet true s k v).2).d.get k = some v :=
    get_preserved_inserts k v ops (dSet true s k v).2 hG1 hget hops
  have hcont : (runOps ops (dSet true s k v).2).d.containsK k = true := by
    unfold PyDictObject.containsK
    rw [hmain]
    rfl
  exact ⟨⟨hmain, hcont⟩, ⟨hmain, hcont⟩⟩

theorem claim_C1_witness :
    (runOps [Op.set true 2 7] (dSet true initState 1 42).2).d.get 1 = some 42
      ∧ (runOps [Op.set true 2 7] (dSet true initState 1 42).2).d.containsK 1
          = true :=
  (claim_C1 initState 1 42 [Op.set true 2 7] (by decide)
    (by
      intro op hop
      rw [List.mem_singleton] at hop
      subst hop
      exact (by decide : (2:Nat) ≠ 1))).1

/-- Claim C2: a mutating operation (set; set_default when inserting;
delete and pop of a present key; merge applying at least one key) moves
the version tag to a value never observed earlier in the trace, while
`get` and `contains` leave the state untouched. -/
theorem claim_C2 :
    (∀ (ops : List Op) (s0 : DState), WFstate s0 = true →
       ∀ i j : Nat, i ≤ j → tagAt ops s0 (j + 1) ≠ tagAt ops s0 j →
         tagAt ops s0 (j + 1) ≠ tagAt ops s0 i)
    ∧ (∀ (s : DState) (k : Nat),
         applyOp s (.getO k) = s ∧ applyOp s (.containsO k) = s)
    ∧ (∀ (s : DState) (k v : Nat), WFstate s = true →
         (dSet true s k v).2.d.ma_version_tag ≠ s.d.ma_version_tag)
    ∧ (∀ (s : DState) (k dflt : Nat), Good s = true →
         s.d.containsK k = false →
         (dSetDefault true s k dflt).2.d.ma_version_tag ≠ s.d.ma_version_tag)
    ∧ (∀ (s : DState) (k v : Nat), Good s = true → s.d.get k = some v →
         (dDelete s k).2.d.ma_version_tag ≠ s.d.ma_version_tag)
    ∧ (∀ (s : DState) (k v : Nat) (dflt : Option Nat), Good s = true →
         s.d.get k = some v →
         (dPop s k dflt).2.d.ma_version_tag ≠ s.d.ma_version_tag)
    ∧ (∀ (s : DState) (other : PyDictObject) (pol : MergePolicy),
         WFstate s = true → 1 ≤ (dMerge true s other pol).2.2 →
         (dMerge true s other pol).2.1.d.ma_version_tag
           ≠ s.d.ma_version_tag) := by
  refine ⟨?_, ?_, ?_, ?_, ?_, ?_, ?_⟩
  · exact fun ops s0 hW i j hij hchg => tag_fresh ops s0 hW hij hchg
  · exact fun s k => ⟨rfl, rfl⟩
  · intro s k v hW
    rw [WFstate_iff] at hW
    rw [show dSet true s k v = dSetKH true s k v (hashFn k) from rfl,
      dSetKH_true_tag]
    omega
  · intro s k dflt hG hc
    have hW := ((Good_iff s).mp hG).1
    rw [WFstate_iff] at hW
    rw [(dSetDefault_absent dflt hG hc).2.2]
    omega
  · intro s k v hG hget
    have hW := ((Good_iff s).mp hG).1
    rw [WFstate_iff] at hW
    rw [(dDelete_present_state hG hget).2.1]
    omega
  · intro s k v dflt hG hget
    have hW := ((Good_iff s).mp hG).1
    rw [WFstate_iff] at hW
    rw [(dPop_present_state hG hget dflt).2.1]
    omega
  · intro s other pol hW hmerged
    have hWi := hW
    rw [WFstate_iff] at hWi
    have := mergeLoop_applied_tag pol (liveEntries other) s 0 (by
      show 0 < (dMerge true s other pol).2.2
      omega)
    show (mergeLoop true pol (liveEntries other) s 0).2.1.d.ma_version_tag
      ≠ s.d.ma_version_tag
    intro heq
    rw [heq] at this
    omega

theorem claim_C2_witness :
    (dSet true initState 1 2).2.d.ma_version_tag
        ≠ initState.d.ma_version_tag
      ∧ (dDelete (dSet true initState 1 2).2 1).2.d.ma_version_tag
          ≠ (dSet true initState 1 2).2.d.ma_version_tag :=
  ⟨claim_C2.2.2.1 initState 1 2 (by decide),
   claim_C2.2.2.2.2.1 (dSet true initState 1 2).2 1 2 (by decide)
     (by decide)⟩

/-- Claim C3: in every well-formed state the keys table is in split mode
exactly when the values pointer is non-null and the item count is bounded
by the filled slots; the invariant holds for the initial states and the
split-mode creation, is preserved by every operation, and therefore holds
in every state reachable from a fresh dictionary. -/
theorem claim_C3 :
    (∀ s : DState, WFstate s = true →
       ((s.d.ma_keys.mode = .split ↔ s.d.ma_values ≠ none)
         ∧ s.d.ma_used ≤ s.d.ma_keys.filledSlots))
    ∧ (∀ (s : DState) (op : Op), WFstate s = true →
        WFstate (applyOp s op) = true)
    ∧ WFstate initState = true
    ∧ (∀ n, WFstate (newPresized n) = true)
    ∧ (∀ s : DState, WFstate s = true → WFstate (mkSplitShared s) = true)
    ∧ (∀ ops : List Op,
        ((runOps ops initState).d.ma_keys.mode = .split
            ↔ (runOps ops initState).d.ma_values ≠ none)
          ∧ (runOps ops initState).d.ma_used
              ≤ (runOps ops initState).d.ma_keys.filledSlots) := by
  have hP : ∀ s : DState, WFstate s = true →
      ((s.d.ma_keys.mode = .split ↔ s.d.ma_values ≠ none)
        ∧ s.d.ma_used ≤ s.d.ma_keys.filledSlots) := by
    intro s hW
    rw [WFstate_iff] at hW
    obtain ⟨hWd, -, -, -⟩ := hW
    have hle : s.d.ma_used ≤ s.d.ma_keys.filledSlots := by
      rw [WFdict_used hWd]
      exact liveCount_le_filled s.d
    rcases hv : s.d.ma_values with _ | vals
    · rw [WFdict_combined_iff hv] at hWd
      refine ⟨⟨fun hm => ?_, fun hne => ?_⟩, hle⟩
      · rw [hWd.1] at hm
        exact TableMode.noConfusion hm
      · exact absurd rfl hne
    · rw [WFdict_split_iff hv] at hWd
      exact ⟨⟨fun _ => by simp, fun _ => hWd.1⟩, hle⟩
  have hinit : WFstate initState = true := by decide
  refine ⟨hP, fun s op hW => WFstate_applyOp s op hW, hinit, ?_, ?_, ?_⟩
  · intro n
    rw [WFstate_iff]
    refine ⟨?_, ?_, ?_, ?_⟩
    · rw [WFdict_combined_iff rfl]
      exact ⟨rfl, rfl, rfl⟩
    · show (1:Nat) < 2
      omega
    · show (1:Nat) ≤ 1
      omega
    · show (0:Nat) < 1
      omega
  · exact fun s hW => WFstate_mkSplitShared s hW
  · intro ops
    exact hP (runOps ops initState) (WFstate_runOps ops initState hinit)

theorem claim_C3_witness :
    WFstate (applyOp (mkSplitShared (dSet true initState 3 30).2)
        (Op.set true 5 50)) = true :=
  claim_C3.2.1 (mkSplitShared (dSet true initState 3 30).2) (Op.set true 5 50)
    (claim_C3.2.2.2.2.1 (dSet true initState 3 30).2
      (claim_C3.2.1 initState (Op.set true 3 30) (by decide)))

/-- Claim C4: merge with the RaiseOnConflict policy walks the live entries
of the other dictionary in insertion order, fails with KeyConflict at the
first key already present, and leaves every earlier key of the other
dictionary applied (no rollback). -/
theorem claim_C4 (s : DState) (other : PyDictObject)
    (pre post : List (Nat × Nat)) (k v : Nat)
    (hG : Good s = true)
    (horder : liveEntries other = pre ++ (k, v) :: post)
    (hpre : ∀ p ∈ pre, s.d.containsK p.1 = false)
    (hnd : (pre.map Prod.fst).Nodup)
    (hck : s.d.containsK k = true) :
    (dMerge true s other .raiseOnConflict).1 = Except.error (.keyConflict k)
    ∧ (dMerge true s other .raiseOnConflict).2.2 = pre.length
    ∧ (∀ p ∈ pre,
        (dMerge true s other .raiseOnConflict).2.1.d.get p.1 = some p.2) := by
  unfold dMerge
  rw [horder]
  obtain ⟨h1, h2, h3, -⟩ := mergeLoop_conflict k v post pre s 0 hG hpre hnd hck
  exact ⟨h1, by rw [h2]; omega, h3⟩

theorem claim_C4_witness :
    (dMerge true ((dSet true ((dSet true initState 1 10).2) 2 20).2)
        ((dSet true ((dSet true initState 3 30).2) 1 11).2).d
        .raiseOnConflict).1 = Except.error (.keyConflict 1)
      ∧ (dMerge true ((dSet true ((dSet true initState 1 10).2) 2 20).2)
          ((dSet true ((dSet true initState 3 30).2) 1 11).2).d
          .raiseOnConflict).2.1.d.get 3 = some 30 := by
  have h := claim_C4 ((dSet true ((dSet true initState 1 10).2) 2 20).2)
    ((dSet true ((dSet true initState 3 30).2) 1 11).2).d
    [(3, 30)] [] 1 11 (by decide) (by decide)
    (by
      intro p hp
      rw [List.mem_singleton] at hp
      subst hp
      decide)
    (by decide) (by decide)
  exact ⟨h.1, h.2.2 (3, 30) (List.mem_singleton.mpr rfl)⟩

/-- Claim C5: deleting or popping an absent key fails with KeyMissing and
leaves the state untouched; pop with a default returns the default; pop of
a present key returns its value and removes the pair; get of an absent key
returns the absent sentinel, and being a pure function it never fails and
never mutates. -/
theorem claim_C5 (s : DState) (k : Nat) (hG : Good s = true) :
    (s.d.containsK k = false →
       dDelete s k = (Except.error .keyMissing, s)
       ∧ dDeleteKH s k (hashFn k) = (Except.error .keyMissing, s)
       ∧ dPop s k none = (Except.error .keyMissing, s)
       ∧ (∀ d0, dPop s k (some d0) = (Except.ok d0, s))
       ∧ s.d.get k = none)
    ∧ (∀ v, s.d.get k = some v → ∀ dflt,
        (dPop s k dflt).1 = Except.ok v
        ∧ (dPop s k dflt).2.d.get k = none) := by
  constructor
  · intro hc
    obtain ⟨hp1, hp2⟩ := dPop_absent_state hG hc
    refine ⟨dDelete_absent_state hG hc, dDeleteKH_absent_state hG hc,
      hp1, hp2, ?_⟩
    unfold PyDictObject.containsK at hc
    exact Option.not_isSome_iff_eq_none.mp (by rw [hc]; simp)
  · intro v hget dflt
    obtain ⟨h1, -, h3, -⟩ := dPop_present_state hG hget dflt
    exact ⟨h1, h3⟩

theorem claim_C5_witness :
    dDelete initState 9 = (Except.error .keyMissing, initState)
      ∧ (dPop (dSet true initState 4 44).2 4 none).1 = Except.ok 44 := by
  have h1 := (claim_C5 initState 9 (by decide)).1 (by decide)
  have h2 := ((claim_C5 (dSet true initState 4 44).2 4 (by decide)).2 44
    (by decide) none).1
  exact ⟨h1.1, h2⟩

/-- Claim C6: set_default returns the existing value when the key is
present and otherwise inserts the default and returns it; a second call
with the same key returns the same value and leaves the state (hence the
size) unchanged; every call invokes the hashing collaborator exactly once
and performs a single probe pass. -/
theorem claim_C6 (s : DState) (k dflt : Nat) (hG : Good s = true) :
    (∀ v, s.d.get k = some v → dSetDefault true s k dflt = (Except.ok v, s))
    ∧ (s.d.containsK k = false →
        (dSetDefault true s k dflt).1 = Except.ok dflt
        ∧ (dSetDefault true s k dflt).2.d.get k = some dflt)
    ∧ (dSetDefault true (dSetDefault true s k dflt).2 k dflt
        = ((dSetDefault true s k dflt).1, (dSetDefault true s k dflt).2))
    ∧ ((dSetDefault true (dSetDefault true s k dflt).2 k dflt).2.d.ma_used
        = (dSetDefault true s k dflt).2.d.ma_used)
    ∧ (∀ c, (dSetDefaultCounted true s k dflt c).2
        = ⟨c.hashCalls + 1, c.lookupPasses + 1⟩) := by
  have hsecond : dSetDefault true (dSetDefault true s k dflt).2 k dflt
      = ((dSetDefault true s k dflt).1, (dSetDefault true s k dflt).2) := by
    obtain ⟨w, hrun, hget⟩ := dSetDefault_true_ok k dflt hG
    rw [dSetDefault_present true dflt hget]
    rw [hrun]
  refine ⟨?_, ?_, hsecond, by rw [hsecond], fun c => dSetDefault_counts true s k dflt c⟩
  · intro v hget
    exact dSetDefault_present true dflt hget
  · intro hc
    obtain ⟨h1, h2, -⟩ := dSetDefault_absent dflt hG hc
    exact ⟨h1, h2⟩

theorem claim_C6_witness :
    (dSetDefault true (dSetDefault true initState 7 70).2 7 70
        = ((dSetDefault true initState 7 70).1,
           (dSetDefault true initState 7 70).2))
      ∧ (dSetDefaultCounted true initState 7 70 ⟨0, 0⟩).2 = ⟨1, 1⟩ :=
  ⟨(claim_C6 initState 7 70 (by decide)).2.2.1,
   (claim_C6 initState 7 70 (by decide)).2.2.2.2 ⟨0, 0⟩⟩

/-- Claim C7: a cursor drained through next yields exactly the live
(key, value, hash) triples in key-insertion order, skipping dead slots;
next fails deterministically with InvalidatedCursor whenever the generation of the
cursor is not that of the table, and a structural mutation (insert of a new
key, delete of a present key) bumps the generation, invalidating cursors
issued before it. -/
theorem claim_C7 (s : DState) (hG : Good s = true) :
    (cursorList s.d = liveTriples s.d)
    ∧ (∀ c : Cursor, c.gen ≠ s.d.ma_keys.generation →
        dNext s.d c = Except.error .invalidatedCursor)
    ∧ (∀ k v, s.d.containsK k = false →
        dNext (dSet true s k v).2.d (freshCursor s.d)
          = Except.error .invalidatedCursor)
    ∧ (∀ k v, s.d.get k = some v →
        dNext (dDelete s k).2.d (freshCursor s.d)
          = Except.error .invalidatedCursor) := by
  refine ⟨cursorList_eq_liveTriples s.d, fun c hc => dNext_invalid s.d c hc,
    ?_, ?_⟩
  · intro k v hc
    refine dNext_invalid _ _ ?_
    rw [dSet_absent_gen v hG hc]
    show s.d.ma_keys.generation ≠ s.d.ma_keys.generation + 1
    omega
  · intro k v hget
    refine dNext_invalid _ _ ?_
    rw [(dDelete_present_state hG hget).2.2.1]
    show s.d.ma_keys.generation ≠ s.d.ma_keys.generation + 1
    omega

theorem claim_C7_witness :
    (cursorList (dSet true (dSet true initState 1 10).2 2 20).2.d
        = liveTriples (dSet true (dSet true initState 1 10).2 2 20).2.d)
      ∧ dNext (dSet true (dSet true initState 1 10).2 2 20).2.d
          (freshCursor (dSet true initState 1 10).2.d)
          = Except.error .invalidatedCursor := by
  have h := claim_C7 (dSet true initState 1 10).2 (by decide)
  exact ⟨(claim_C7 (dSet true (dSet true initState 1 10).2 2 20).2
    (by decide)).1, h.2.2.1 2 20 (by decide)⟩

/-- Claim C8: operations that grow or privatize the table surface a failed
allocation as OutOfMemory with the dictionary left exactly in its
pre-operation state; delete and pop never allocate and never report
OutOfMemory; an insert that fits the current table succeeds even when the
allocator is failing. -/
theorem claim_C8 :
    (∀ (a : Bool) (s : DState) (k v h : Nat) (e : DictError),
       (dSetKH a s k v h).1 = Except.error e →
       e = .outOfMemory ∧ (dSetKH a s k v h).2 = s)
    ∧ (∀ (a : Bool) (s : DState) (k dflt : Nat) (e : DictError),
       (dSetDefault a s k dflt).1 = Except.error e →
       e = .outOfMemory ∧ (dSetDefault a s k dflt).2 = s)
    ∧ (∀ (s : DState) (k h : Nat),
        (dDeleteKH s k h).1 ≠ Except.error .outOfMemory)
    ∧ (∀ (s : DState) (k h : Nat) (dflt : Option Nat),
        (dPopKH s k h dflt).1 ≠ Except.error .outOfMemory)
    ∧ (∀ (s : DState) (k v : Nat), Good s = true → s.d.ma_values = none →
        s.d.containsK k = false → needsGrow s.d.ma_keys = true →
        dSet false s k v = (Except.error .outOfMemory, s))
    ∧ (∀ (s : DState) (k v : Nat) (vals : List (Option Nat)),
        s.d.ma_values = some vals →
        updateS k (hashFn k) (some v) s.d.ma_keys.slots vals = none →
        dSet false s k v = (Except.error .outOfMemory, s))
    ∧ (∀ (s : DState) (k v : Nat), Good s = true → s.d.ma_values = none →
        s.d.containsK k = false → needsGrow s.d.ma_keys = false →
        (dSet false s k v).1 = Except.ok ()) :=
  ⟨fun a s k v h e hrun => dSetKH_err hrun,
   fun a s k dflt e hrun => dSetDefault_err hrun,
   fun s k h => dDeleteKH_no_oom s k h,
   fun s k h dflt => dPopKH_no_oom s k h dflt,
   fun s k v hG hv hc hg => dSet_oom_grow v hG hv hc hg,
   fun s k v vals hv hu => dSet_oom_privatize v hv hu,
   fun s k v hG hv hc hg => dSet_nogrow_ok v hG hv hc hg⟩

theorem claim_C8_witness :
    dSet false (mkSplitShared (dSet true initState 5 50).2) 9 90
        = (Except.error .outOfMemory, mkSplitShared (dSet true initState 5 50).2)
      ∧ (dSet false initState 1 2).1 = Except.ok () :=
  ⟨claim_C8.2.2.2.2.2.1 (mkSplitShared (dSet true initState 5 50).2) 9 90
      [none] (by decide) (by decide),
   claim_C8.2.2.2.2.2.2 initState 1 2 (by decide) (by decide) (by decide)
     (by decide)⟩

theorem getVersion_stability {s : DState} {v : Nat} {s' : DState}
    (hrun : getVersionForCurrentState s = (v, s')) (hv : v ≠ 0) :
    (getVersionForCurrentState s').1 = v
      ∧ keyShape s'.d.ma_keys = keyShape s.d.ma_keys := by
  by_cases h1 : s.d.ma_keys.kv_version = 0
  · by_cases h2 : s.keysOracle < 2 ^ 32
    · simp only [getVersionForCurrentState, h1, ne_eq, not_true_eq_false,
        if_false, if_pos h2] at hrun
      cases hrun
      constructor
      · simp only [getVersionForCurrentState, ne_eq]
        rw [if_pos ?hcond]
        case hcond =>
          show s.keysOracle ≠ 0
          exact hv
      · rfl
    · simp only [getVersionForCurrentState, h1, ne_eq, not_true_eq_false,
        if_false, if_neg h2] at hrun
      cases hrun
      exact absurd rfl hv
  · simp only [getVersionForCurrentState, ne_eq, h1, not_false_eq_true,
      if_true] at hrun
    cases hrun
    constructor
    · simp only [getVersionForCurrentState, ne_eq, h1, not_false_eq_true,
        if_true]
    · rfl

theorem getVersion_zero_iff (s : DState) (hW : WFstate s = true) :
    (getVersionForCurrentState s).1 = 0
      ↔ (s.d.ma_keys.kv_version = 0 ∧ ¬ s.keysOracle < 2 ^ 32) := by
  rw [WFstate_iff] at hW
  obtain ⟨-, -, hko, -⟩ := hW
  by_cases h1 : s.d.ma_keys.kv_version = 0
  · by_cases h2 : s.keysOracle < 2 ^ 32
    · simp only [getVersionForCurrentState, h1, ne_eq, not_true_eq_false,
        if_false, if_pos h2]
      constructor
      · intro h0
        omega
      · rintro ⟨-, hn⟩
        exact absurd h2 hn
    · simp only [getVersionForCurrentState, h1, ne_eq, not_true_eq_false,
        if_false, if_neg h2]
      exact ⟨fun _ => ⟨trivial, h2⟩, fun _ => trivial⟩
  · simp only [getVersionForCurrentState, ne_eq, h1, not_false_eq_true,
      if_true]
    simp [h1]

theorem kv_unique (ops : List Op) (s0 : DState) (hW : WFstate s0 = true)
    {i j v : Nat} (hij : i ≤ j) (hv : v ≠ 0)
    (hvi : (stateAt ops s0 i).d.ma_keys.kv_version = v)
    (hvj : (stateAt ops s0 j).d.ma_keys.kv_version = v) :
    keyShape (stateAt ops s0 j).d.ma_keys
      = keyShape (stateAt ops s0 i).d.ma_keys := by
  have hsr := stateAt_stepR ops s0 hij
  have hWi : WFstate (stateAt ops s0 i) = true := WFstate_runOps _ _ hW
  rw [WFstate_iff] at hWi
  rcases hsr.2.2.2 (by rw [hvj]; exact hv) with ⟨heq, hsh⟩ | hge
  · exact hsh
  · exfalso
    rw [hvj] at hge
    have hlt := hWi.2.2.2
    rw [hvi] at hlt
    omega

/-- Claim C9: the keys-version oracle returns a nonzero number only as a
stable, unique identifier of the present key shape — a second call on the
unmutated table returns the same number, and no other key shape reachable
in the same trace ever carries that number — and returns zero exactly when
uniqueness cannot be guaranteed (the 32-bit pool is exhausted and the
table has no version); zero carries no caching guarantee. -/
theorem claim_C9 :
    (∀ (s : DState) (v : Nat) (s' : DState),
       getVersionForCurrentState s = (v, s') → v ≠ 0 →
       (getVersionForCurrentState s').1 = v
         ∧ keyShape s'.d.ma_keys = keyShape s.d.ma_keys)
    ∧ (∀ (ops : List Op) (s0 : DState), WFstate s0 = true →
       ∀ (i j v : Nat), i ≤ j → v ≠ 0 →
       (stateAt ops s0 i).d.ma_keys.kv_version = v →
       (stateAt ops s0 j).d.ma_keys.kv_version = v →
       keyShape (stateAt ops s0 j).d.ma_keys
         = keyShape (stateAt ops s0 i).d.ma_keys)
    ∧ (∀ s : DState, WFstate s = true →
       ((getVersionForCurrentState s).1 = 0
         ↔ (s.d.ma_keys.kv_version = 0 ∧ ¬ s.keysOracle < 2 ^ 32))) :=
  ⟨fun s v s' hrun hv => getVersion_stability hrun hv,
   fun ops s0 hW i j v hij hv hvi hvj => kv_unique ops s0 hW hij hv hvi hvj,
   fun s hW => getVersion_zero_iff s hW⟩

theorem claim_C9_witness :
    (getVersionForCurrentState
        (getVersionForCurrentState initState).2).1
      = (getVersionForCurrentState initState).1 :=
  (claim_C9.1 initState (getVersionForCurrentState initState).1
    (getVersionForCurrentState initState).2 rfl (by decide)).1

/-- Claim C10: under the precondition `PyDict_Check(mp)` the assertion in
`PyDict_GET_SIZE` never fails and the macro evaluates to `ma_used`, which
in a well-formed dictionary counts the live key-value pairs; the macro is
a pure function of the object, so it mutates nothing; on a fresh empty
dictionary it yields 0. -/
theorem claim_C10 (mp : PyObj) (hchk : PyDict_Check mp = true) :
    PyDict_GET_SIZE mp = some (asDict mp).ma_used
    ∧ (WFdict (asDict mp) = true →
        PyDict_GET_SIZE mp = some (liveCount (asDict mp)))
    ∧ PyDict_GET_SIZE (PyObj.dictObj emptyDict) = some 0 := by
  refine ⟨?_, ?_, rfl⟩
  · unfold PyDict_GET_SIZE
    rw [if_pos hchk]
  · intro hWd
    unfold PyDict_GET_SIZE
    rw [if_pos hchk, WFdict_used hWd]

theorem claim_C10_witness :
    PyDict_GET_SIZE (PyObj.dictObj emptyDict)
        = some (asDict (PyObj.dictObj emptyDict)).ma_used
      ∧ PyDict_GET_SIZE (PyObj.dictObj emptyDict) = some 0 :=
  ⟨(claim_C10 (PyObj.dictObj emptyDict) (by decide)).1,
   (claim_C10 (PyObj.dictObj emptyDict) (by decide)).2.2⟩

end DictSpec
